import Mathlib

/-!
Verification of the mpmc-std bounded MPMC ring-buffer queue (`src/lib.rs` and
`src/simd_queue.rs`), shallowly embedded for sequential executions.

Machine integers (`usize`, `u64`) are modelled as `Nat` with explicit
wrapping arithmetic modulo `W = 2 ^ 64`.  Atomic loads and stores are plain
reads and writes of the state; a `compare_exchange_weak` whose compared value
matches succeeds (in a sequential execution there is no interference, and a
spurious failure merely repeats the loop with an unchanged state, so the
deterministic sequential semantics takes the success branch).  A loop
iteration that ends in `continue` re-reads an unchanged state, so it repeats
forever; such an outcome is modelled by the explicit result `spin`.
`MaybeUninit<T>` payload storage is modelled as `Option α` (`none` =
uninitialised / moved out), and a read of uninitialised storage is the
explicit result `corrupt`.
-/

/-- Size of the `usize` value space: the queue targets 64-bit platforms. -/
def W : Nat := 2 ^ 64

/-- Wrapping addition of `usize` values (`usize::wrapping_add`). -/
def wadd (a b : Nat) : Nat := (a + b) % W

/-- Wrapping subtraction of `usize` values (`usize::wrapping_sub`). -/
def wsub (a b : Nat) : Nat := (a + W - b % W) % W

/-- Fuelled structural base-2 logarithm (equal to `Nat.log2` whenever
`n ≤ fuel`, see `log2_floor_eq`); structural so that the kernel can evaluate
it on concrete inputs. -/
def log2_floor : Nat → Nat → Nat
  | 0, _ => 0
  | fuel + 1, n => if 2 ≤ n then log2_floor fuel (n / 2) + 1 else 0

/-- Modelled from the spec: `usize::next_power_of_two` from the Rust standard
library (not part of this repository's sources), "the smallest power of two
greater than or equal to `self`".  The closed form `2 ^ (log2 (n-1) + 1)`
mirrors the library's leading-zeros implementation for arguments whose result
does not overflow. -/
def next_power_of_two (n : Nat) : Nat :=
  if n ≤ 1 then 1 else 2 ^ (log2_floor (n - 1) (n - 1) + 1)

/-- One ring cell (`Slot<T>` in `src/lib.rs`): an atomic sequence number and
`MaybeUninit` payload storage. -/
structure Slot (α : Type) where
  sequence : Nat
  data : Option α
deriving DecidableEq, Repr

/-- The scalar queue `MpmcQueue<T>` of `src/lib.rs`.  `producer_pos.head` and
`consumer_pos.tail` are inlined as `head` and `tail` (the cache-line padding
wrappers hold no other state). -/
structure MpmcQueue (α : Type) where
  buffer : List (Slot α)
  capacity : Nat
  mask : Nat
  head : Nat
  tail : Nat
deriving DecidableEq, Repr

/-- `MpmcQueue::new`: round the capacity up to a power of two, fill the buffer
with slots whose sequence number is their index, start with `head = tail = 0`.
(The `capacity > 0` assertion becomes a hypothesis of the theorems.) -/
def MpmcQueue.new (α : Type) (c : Nat) : MpmcQueue α :=
  let capacity := next_power_of_two c
  { buffer := (List.range capacity).map (fun i => ⟨i, none⟩)
    capacity := capacity
    mask := capacity - 1
    head := 0
    tail := 0 }

/-- Outcome of one single-item send call in a sequential execution, for a
queue of state type `σ`. -/
inductive SendResult (σ α : Type) where
  | ok (q : σ)
  | full (q : σ) (item : α)
  | spin
  | corrupt
deriving DecidableEq, Repr

/-- Outcome of one single-item recv call in a sequential execution, for a
queue of state type `σ`. -/
inductive RecvResult (σ α : Type) where
  | received (q : σ) (item : α)
  | empty (q : σ)
  | spin
  | corrupt
deriving DecidableEq, Repr

/-- `MpmcQueue::send`.  Load `head`, inspect the slot at `head & mask` and
compare its sequence number with `head`:
equal — claim the slot (CAS `head → head+1`), write the payload and publish
`sequence = head + 1`; less — report `Full` when `head - tail ≥ capacity`,
otherwise the loop would retry with an unchanged state (`spin`); greater —
the loop would retry (`spin`). -/
def MpmcQueue.send (q : MpmcQueue α) (item : α) : SendResult (MpmcQueue α) α :=
  let head := q.head
  match q.buffer[head &&& q.mask]? with
  | none => .corrupt
  | some slot =>
    if slot.sequence = head then
      .ok { q with head := wadd head 1
                   buffer := q.buffer.set (head &&& q.mask) ⟨wadd head 1, some item⟩ }
    else if slot.sequence < head then
      if q.capacity ≤ wsub head q.tail then .full q item else .spin
    else .spin

/-- `MpmcQueue::recv`.  Load `tail`, inspect the slot at `tail & mask` and
compare its sequence number with `tail + 1`:
equal — claim the slot (CAS `tail → tail+1`), move the payload out and
publish `sequence = tail + capacity`; less — the queue is empty (`None`);
greater — the loop would retry (`spin`). -/
def MpmcQueue.recv (q : MpmcQueue α) : RecvResult (MpmcQueue α) α :=
  let tail := q.tail
  match q.buffer[tail &&& q.mask]? with
  | none => .corrupt
  | some slot =>
    if slot.sequence = wadd tail 1 then
      match slot.data with
      | none => .corrupt
      | some item =>
        .received { q with tail := wadd tail 1
                           buffer := q.buffer.set (tail &&& q.mask)
                             ⟨wadd tail q.capacity, none⟩ } item
    else if slot.sequence < wadd tail 1 then .empty q
    else .spin

/-- `MpmcQueue::len`: the snapshot `head.wrapping_sub(tail)`. -/
def MpmcQueue.len (q : MpmcQueue α) : Nat := wsub q.head q.tail

/-- `MpmcQueue::is_empty`: the snapshot `head == tail`. -/
def MpmcQueue.is_empty (q : MpmcQueue α) : Bool := q.head == q.tail

/-- `MpmcQueue::is_full`: the snapshot `head.wrapping_sub(tail) >= capacity`. -/
def MpmcQueue.is_full (q : MpmcQueue α) : Bool := decide (q.capacity ≤ wsub q.head q.tail)

/-- One loop iteration batch of `<MpmcQueue as Drop>::drop`: while
`head ≠ tail`, read the slot at `tail & mask`; if its sequence is `tail + 1`
claim it (CAS `tail → tail+1`), destruct the payload and publish
`sequence = tail + capacity`, otherwise break.  The returned list collects the
destructed payloads in order.  `fuel` bounds the iteration count; the drain
advances `tail` by one per iteration, so `wsub head tail` steps always
suffice for the guard `head = tail` to stop the loop. -/
def MpmcQueue.drop_loop : Nat → MpmcQueue α → MpmcQueue α × List α
  | 0, q => (q, [])
  | fuel + 1, q =>
    if q.head = q.tail then (q, [])
    else
      match q.buffer[q.tail &&& q.mask]? with
      | none => (q, [])
      | some slot =>
        if slot.sequence = wadd q.tail 1 then
          match slot.data with
          | none => (q, [])
          | some v =>
            let q' : MpmcQueue α :=
              { q with tail := wadd q.tail 1
                       buffer := q.buffer.set (q.tail &&& q.mask)
                         ⟨wadd q.tail q.capacity, none⟩ }
            let r := drop_loop fuel q'
            (r.1, v :: r.2)
        else (q, [])

/-- `<MpmcQueue as Drop>::drop`: the teardown drain. -/
def MpmcQueue.drop_drain (q : MpmcQueue α) : MpmcQueue α × List α :=
  MpmcQueue.drop_loop (wsub q.head q.tail) q

/-- An operation of a sequential workload on the scalar queue. -/
inductive Op (α : Type) where
  | send (x : α)
  | recv
deriving DecidableEq, Repr

/-- Run a sequence of operations sequentially.  Returns the final queue, the
list of successfully sent values and the list of received values, in call
order; `none` when some call diverges (`spin`) or reads corrupt state, so the
sequence after it never executes. -/
def run : MpmcQueue α → List (Op α) → Option (MpmcQueue α × List α × List α)
  | q, [] => some (q, [], [])
  | q, .send x :: rest =>
    match q.send x with
    | .ok q' => (run q' rest).map (fun r => (r.1, x :: r.2.1, r.2.2))
    | .full q' _ => run q' rest
    | _ => none
  | q, .recv :: rest =>
    match q.recv with
    | .received q' v => (run q' rest).map (fun r => (r.1, r.2.1, v :: r.2.2))
    | .empty q' => run q' rest
    | _ => none

/-- A state is reachable when some sequential workload, started on a freshly
constructed queue of requested capacity `c`, completes and ends in it. -/
def Reachable (c : Nat) (q : MpmcQueue α) : Prop :=
  ∃ ops sent recvd, run (MpmcQueue.new α c) ops = some (q, sent, recvd)

/-- Abstraction: the logical content of the queue, read from the `len` slots
that start at ring position `tail % capacity`. -/
def MpmcQueue.contents (q : MpmcQueue α) : List α :=
  (List.range (wsub q.head q.tail)).filterMap (fun k =>
    match q.buffer[(q.tail + k) % q.capacity]? with
    | some s => s.data
    | none => none)

/-- The current ticket of ring position `p`: the first ticket `t ≡ p (mod C)`
at or after the consumer ticket `tail`, in wrapping `usize` arithmetic. -/
def current_ticket (q : MpmcQueue α) (p : Nat) : Nat :=
  wadd q.tail ((p + q.capacity - q.tail % q.capacity) % q.capacity)

/-- State of the slot holding ticket `tail + k`: slots `k < len` are full and
carry sequence `tail + k + 1`; slots `len ≤ k < capacity` are empty awaiting
producer ticket `tail + k`. -/
def slot_ok (tl len k : Nat) (s : Slot α) : Prop :=
  if k < len then s.sequence = wadd tl (k + 1) ∧ ∃ v, s.data = some v
  else s.sequence = wadd tl k

/-- The sequential state invariant of the scalar queue at effective
capacity `C`. -/
def QInv (C : Nat) (q : MpmcQueue α) : Prop :=
  q.capacity = C ∧ q.mask = C - 1 ∧ q.buffer.length = C ∧
  q.head < W ∧ q.tail < W ∧ wsub q.head q.tail ≤ C ∧
  ∀ k, k < C → ∀ s, q.buffer[(q.tail + k) % C]? = some s →
    slot_ok q.tail (wsub q.head q.tail) k s

/-- Side conditions on the effective capacity under which the protocol is
sound: at least two slots (the sequence encoding degenerates at one slot) and
a power of two that divides the `usize` value space. -/
def GoodCap (C : Nat) : Prop := 2 ≤ C ∧ C ∣ W ∧ C < W

/-- Statement of claim C1 at requested capacity `c`: every completed
sequential workload receives a prefix (in order) of the successfully sent
values. -/
def FifoSpec (c : Nat) : Prop :=
  ∀ ops qf sent recvd, run (MpmcQueue.new Nat c) ops = some (qf, sent, recvd) →
    ∃ rest, recvd ++ rest = sent

/-- Statement of claim C2 at requested capacity `c`: in every reachable state
each slot's sequence equals the current ticket of its position (a value
congruent to the position modulo the capacity) or that ticket plus one. -/
def SlotSeqSpec (c : Nat) : Prop :=
  ∀ q : MpmcQueue Nat, Reachable c q → ∀ p, p < q.capacity →
    ∀ s, q.buffer[p]? = some s →
      current_ticket q p % q.capacity = p ∧
      (s.sequence = current_ticket q p ∨ s.sequence = wadd (current_ticket q p) 1)

/-- Statement of claim C7 at requested capacity `c`: in every reachable state
`len ≤ capacity`, `is_empty ↔ len = 0` and `is_full ↔ len = capacity`. -/
def LenSpec (c : Nat) : Prop :=
  ∀ q : MpmcQueue Nat, Reachable c q →
    q.len ≤ q.capacity ∧ (q.is_empty = true ↔ q.len = 0) ∧
    (q.is_full = true ↔ q.len = q.capacity)

/-- Statement of claim C8 at requested capacity `c`: after any completed
sequential workload the teardown drain destructs exactly the successfully
sent values that were never received, in order, each once. -/
def DrainSpec (c : Nat) : Prop :=
  ∀ ops qf sent recvd, run (MpmcQueue.new Nat c) ops = some (qf, sent, recvd) →
    recvd ++ (MpmcQueue.drop_drain qf).2 = sent

/-- The vector queue `SimdMpmcQueue<T>` of `src/simd_queue.rs`.  Its slots
(`SimdSlot`) have the same two fields as the scalar `Slot`, so the `Slot`
model is reused.  The payload type is restricted in Rust to 64-bit
bit-reinterpretable types (`Simd64Bit`); the embedding keeps the payload
abstract, since the `to_u64`/`from_u64` round trips in `store_batch_simd` /
`load_batch_simd` are identities on the stored values. -/
structure SimdMpmcQueue (α : Type) where
  buffer : List (Slot α)
  capacity : Nat
  mask : Nat
  head : Nat
  tail : Nat
deriving DecidableEq, Repr

/-- `SimdMpmcQueue::new`: the effective capacity is the next power of two
raised to at least `simd_batch_size * 2 = 8`. -/
def SimdMpmcQueue.new (α : Type) (c : Nat) : SimdMpmcQueue α :=
  let simd_batch_size := 4
  let capacity := max (next_power_of_two c) (simd_batch_size * 2)
  { buffer := (List.range capacity).map (fun i => ⟨i, none⟩)
    capacity := capacity
    mask := capacity - 1
    head := 0
    tail := 0 }

/-- `SimdMpmcQueue::load_sequences_simd`: load the sequence numbers of the
`min batch_size 4` slots at ring positions `start_pos + i` into a 4-lane
vector (unloaded lanes stay `0`); `none` models an out-of-bounds buffer
index (a panic in Rust). -/
def SimdMpmcQueue.load_sequences_simd (q : SimdMpmcQueue α) (start_pos batch_size : Nat) :
    Option (List Nat) :=
  (List.range 4).mapM (fun i =>
    if i < min batch_size 4 then
      (q.buffer[(wadd start_pos i) &&& q.mask]?).map (fun s => s.sequence)
    else some 0)

/-- `SimdMpmcQueue::generate_expected_sequences_simd`: the 4-lane vector
`splat(start_seq) + {0,1,2,3}` in wrapping 64-bit arithmetic (the
`batch_size` argument is unused in the source as well). -/
def SimdMpmcQueue.generate_expected_sequences_simd (start_seq _batch_size : Nat) : List Nat :=
  (List.range 4).map (fun i => wadd start_seq i)

/-- `SimdMpmcQueue::try_claim_batch_producer`: lanewise-compare the four
loaded sequences with `{head, head+1, head+2, head+3}`; when all lanes match,
CAS `head → head + batch_size` (which in a sequential execution succeeds
exactly when the passed `head` is still current). -/
def SimdMpmcQueue.try_claim_batch_producer (q : SimdMpmcQueue α) (head batch_size : Nat) :
    Option (Bool × SimdMpmcQueue α) :=
  (q.load_sequences_simd head batch_size).map (fun sequences =>
    if sequences = SimdMpmcQueue.generate_expected_sequences_simd head batch_size then
      if q.head = head then (true, { q with head := wadd head batch_size })
      else (false, q)
    else (false, q))

/-- `SimdMpmcQueue::try_claim_batch_consumer`: as the producer variant, with
expected lanes `{tail+1, tail+2, tail+3, tail+4}` and a CAS on `tail`. -/
def SimdMpmcQueue.try_claim_batch_consumer (q : SimdMpmcQueue α) (tail batch_size : Nat) :
    Option (Bool × SimdMpmcQueue α) :=
  (q.load_sequences_simd tail batch_size).map (fun sequences =>
    if sequences = SimdMpmcQueue.generate_expected_sequences_simd (wadd tail 1) batch_size then
      if q.tail = tail then (true, { q with tail := wadd tail batch_size })
      else (false, q)
    else (false, q))

/-- `SimdMpmcQueue::store_batch_simd`: write the (at most four) payloads into
the slots at ring positions `head + i` and publish each slot's sequence as
`(head + i) + 1`. -/
def SimdMpmcQueue.store_batch_simd (q : SimdMpmcQueue α) (head : Nat) (items : List α) :
    SimdMpmcQueue α :=
  ((items.take 4).enum).foldl (fun acc iv =>
    let slot_idx := (wadd head iv.1) &&& acc.mask
    { acc with buffer := acc.buffer.set slot_idx ⟨wadd (head + iv.1) 1, some iv.2⟩ }) q

/-- Iterations `i, i+1, …, i+k-1` of the loop of
`SimdMpmcQueue::load_batch_simd`: move each payload out of the slot at ring
position `tail + i` and publish the slot's sequence as
`(tail + i) + capacity`; `none` models an out-of-bounds index or a read of
uninitialised payload storage. -/
def SimdMpmcQueue.load_batch_aux :
    SimdMpmcQueue α → Nat → Nat → Nat → Option (SimdMpmcQueue α × List α)
  | q, _, _, 0 => some (q, [])
  | q, tail, i, k + 1 =>
    let slot_idx := (wadd tail i) &&& q.mask
    match q.buffer[slot_idx]? with
    | none => none
    | some s =>
      match s.data with
      | none => none
      | some v =>
        let q' : SimdMpmcQueue α :=
          { q with buffer := q.buffer.set slot_idx ⟨wadd (tail + i) q.capacity, none⟩ }
        (SimdMpmcQueue.load_batch_aux q' tail (i + 1) k).map (fun r => (r.1, v :: r.2))

/-- `SimdMpmcQueue::load_batch_simd` into an output slice of length `n` (the
source iterates `buffer.iter_mut().take(4)`, hence `min n 4` slots). -/
def SimdMpmcQueue.load_batch_simd (q : SimdMpmcQueue α) (tail n : Nat) :
    Option (SimdMpmcQueue α × List α) :=
  SimdMpmcQueue.load_batch_aux q tail 0 (min n 4)

/-- `SimdMpmcQueue::send_single_internal`: identical protocol to the scalar
`MpmcQueue::send`. -/
def SimdMpmcQueue.send_single_internal (q : SimdMpmcQueue α) (item : α) :
    SendResult (SimdMpmcQueue α) α :=
  let head := q.head
  match q.buffer[head &&& q.mask]? with
  | none => .corrupt
  | some slot =>
    if slot.sequence = head then
      .ok { q with head := wadd head 1
                   buffer := q.buffer.set (head &&& q.mask) ⟨wadd head 1, some item⟩ }
    else if slot.sequence < head then
      if q.capacity ≤ wsub head q.tail then .full q item else .spin
    else .spin

/-- `SimdMpmcQueue::recv_single_internal`: identical protocol to the scalar
`MpmcQueue::recv`. -/
def SimdMpmcQueue.recv_single_internal (q : SimdMpmcQueue α) :
    RecvResult (SimdMpmcQueue α) α :=
  let tail := q.tail
  match q.buffer[tail &&& q.mask]? with
  | none => .corrupt
  | some slot =>
    if slot.sequence = wadd tail 1 then
      match slot.data with
      | none => .corrupt
      | some item =>
        .received { q with tail := wadd tail 1
                           buffer := q.buffer.set (tail &&& q.mask)
                             ⟨wadd tail q.capacity, none⟩ } item
    else if slot.sequence < wadd tail 1 then .empty q
    else .spin

/-- Result of the batch send `SimdMpmcQueue::send`
(`Result<usize, Vec<T>>` in Rust). -/
inductive SendBatchResult (α : Type) where
  | ok (n : Nat)
  | error (unsent : List α)
deriving DecidableEq, Repr

/-- The loops of `SimdMpmcQueue::send`: while at least four items remain, try
a 4-slot batch claim and store, falling back to one scalar send per failed
claim; then send the at most three leftovers individually.  On a full queue
return `Err` with the unsent suffix.  The accumulator is `sent_count`. -/
def SimdMpmcQueue.send_go :
    SimdMpmcQueue α → List α → Nat → Option (SimdMpmcQueue α × SendBatchResult α)
  | q, [], sent_count => some (q, .ok sent_count)
  | q, a :: b :: c :: d :: rest, sent_count =>
    let head := q.head
    match q.try_claim_batch_producer head 4 with
    | none => none
    | some (true, q1) =>
      SimdMpmcQueue.send_go (q1.store_batch_simd head [a, b, c, d]) rest (sent_count + 4)
    | some (false, _) =>
      match q.send_single_internal a with
      | .ok q1 => SimdMpmcQueue.send_go q1 (b :: c :: d :: rest) (sent_count + 1)
      | .full _ _ => some (q, .error (a :: b :: c :: d :: rest))
      | _ => none
  | q, a :: rest, sent_count =>
    match q.send_single_internal a with
    | .ok q1 => SimdMpmcQueue.send_go q1 rest (sent_count + 1)
    | .full _ _ => some (q, .error (a :: rest))
    | _ => none

/-- `SimdMpmcQueue::send` (the batch send): `Ok(0)` on an empty input slice,
otherwise the loops of `send_go`. -/
def SimdMpmcQueue.send (q : SimdMpmcQueue α) (items : List α) :
    Option (SimdMpmcQueue α × SendBatchResult α) :=
  if items.isEmpty then some (q, .ok 0) else SimdMpmcQueue.send_go q items 0

/-- The loops of `SimdMpmcQueue::recv`: while at least four output cells
remain, try a 4-slot batch claim and load, falling back to one scalar recv
per failed claim; then fill the at most three leftover cells individually,
stopping early when the queue is empty.  Returns the final queue, the final
contents of the output buffer, and the received count. -/
def SimdMpmcQueue.recv_go :
    SimdMpmcQueue α → List α → Option (SimdMpmcQueue α × List α × Nat)
  | q, [] => some (q, [], 0)
  | q, a :: b :: c :: d :: rest =>
    let tail := q.tail
    match q.try_claim_batch_consumer tail 4 with
    | none => none
    | some (true, q1) =>
      match q1.load_batch_simd tail 4 with
      | none => none
      | some (q2, vals) =>
        (SimdMpmcQueue.recv_go q2 rest).map (fun r => (r.1, vals ++ r.2.1, r.2.2 + 4))
    | some (false, _) =>
      match q.recv_single_internal with
      | .received q1 v =>
        (SimdMpmcQueue.recv_go q1 (b :: c :: d :: rest)).map
          (fun r => (r.1, v :: r.2.1, r.2.2 + 1))
      | .empty q1 => some (q1, a :: b :: c :: d :: rest, 0)
      | _ => none
  | q, a :: rest =>
    match q.recv_single_internal with
    | .received q1 v =>
      (SimdMpmcQueue.recv_go q1 rest).map (fun r => (r.1, v :: r.2.1, r.2.2 + 1))
    | .empty q1 => some (q1, a :: rest, 0)
    | _ => none

/-- `SimdMpmcQueue::recv` (the batch recv) on an output buffer modelled by
the list of its current cell values. -/
def SimdMpmcQueue.recv (q : SimdMpmcQueue α) (buffer : List α) :
    Option (SimdMpmcQueue α × List α × Nat) :=
  SimdMpmcQueue.recv_go q buffer

/-- `SimdMpmcQueue::send_one`. -/
def SimdMpmcQueue.send_one (q : SimdMpmcQueue α) (item : α) :
    SendResult (SimdMpmcQueue α) α :=
  q.send_single_internal item

/-- `SimdMpmcQueue::recv_one`. -/
def SimdMpmcQueue.recv_one (q : SimdMpmcQueue α) : RecvResult (SimdMpmcQueue α) α :=
  q.recv_single_internal

/-! ### Wrapping-arithmetic helper lemmas -/

theorem W_pos : 0 < W := Nat.pow_pos (by norm_num)

theorem wadd_lt (a b : Nat) : wadd a b < W := Nat.mod_lt _ W_pos

theorem wadd_wadd (a b c : Nat) : wadd (wadd a b) c = wadd a (b + c) := by
  simp [wadd, Nat.mod_add_mod, Nat.add_assoc]

theorem wadd_zero (a : Nat) (h : a < W) : wadd a 0 = a := by
  simp [wadd, Nat.mod_eq_of_lt h]

theorem wsub_eq_iff {a b d : Nat} (ha : a < W) (hb : b < W) (hd : d < W) :
    wsub a b = d ↔ a = wadd b d := by
  constructor
  · intro h
    subst h
    unfold wsub wadd
    rw [Nat.mod_eq_of_lt hb, Nat.add_mod_mod]
    have h1 : b + (a + W - b) = a + W := by omega
    rw [h1, Nat.add_mod_right, Nat.mod_eq_of_lt ha]
  · intro h
    subst h
    unfold wsub wadd
    rw [Nat.mod_eq_of_lt hb]
    have h1 : (b + d) % W + W - b = (b + d) % W + (W - b) := by omega
    rw [h1, Nat.mod_add_mod]
    have h2 : b + d + (W - b) = d + W := by omega
    rw [h2, Nat.add_mod_right, Nat.mod_eq_of_lt hd]

theorem wsub_lt (a b : Nat) : wsub a b < W := Nat.mod_lt _ W_pos

theorem wadd_wsub_cancel {a b : Nat} (ha : a < W) (hb : b < W) :
    a = wadd b (wsub a b) :=
  (wsub_eq_iff ha hb (wsub_lt a b)).1 rfl

theorem wsub_self {a : Nat} (ha : a < W) : wsub a a = 0 :=
  (wsub_eq_iff ha ha W_pos).2 (by rw [wadd_zero a ha])

theorem wsub_succ {a b : Nat} (ha : a < W) (hb : b < W) (h : wsub a b + 1 < W) :
    wsub (wadd a 1) b = wsub a b + 1 := by
  refine (wsub_eq_iff (wadd_lt a 1) hb h).2 ?_
  conv_lhs => rw [wadd_wsub_cancel ha hb]
  rw [wadd_wadd]

theorem wsub_shift {a b : Nat} (ha : a < W) (hb : b < W) (h0 : 0 < wsub a b) :
    wsub a (wadd b 1) = wsub a b - 1 := by
  refine (wsub_eq_iff ha (wadd_lt b 1) (by have := wsub_lt a b; omega)).2 ?_
  rw [wadd_wadd]
  have h1 : 1 + (wsub a b - 1) = wsub a b := by omega
  rw [h1]
  exact wadd_wsub_cancel ha hb

/-! ### Index and mask helper lemmas -/

theorem mask_mod {C j : Nat} (hj : C = 2 ^ j) (x : Nat) : x &&& (C - 1) = x % C := by
  subst hj
  exact Nat.and_pow_two_sub_one_eq_mod x j

theorem goodcap_pow {C : Nat} (h : GoodCap C) : ∃ j, C = 2 ^ j := by
  obtain ⟨-, hdvd, -⟩ := h
  obtain ⟨j, -, hj⟩ := (Nat.dvd_prime_pow Nat.prime_two).1 hdvd
  exact ⟨j, hj⟩

theorem mod_W_mod_C {C : Nat} (hdvd : C ∣ W) (x : Nat) : x % W % C = x % C :=
  Nat.mod_mod_of_dvd x hdvd

theorem pos_inj {C tl k1 k2 : Nat} (h1 : k1 < C) (h2 : k2 < C)
    (h : (tl + k1) % C = (tl + k2) % C) : k1 = k2 := by
  have hm : k1 ≡ k2 [MOD C] := Nat.ModEq.add_left_cancel' tl h
  have h3 : k1 % C = k2 % C := hm
  rwa [Nat.mod_eq_of_lt h1, Nat.mod_eq_of_lt h2] at h3

theorem buffer_get {α : Type} {l : List (Slot α)} {C i : Nat} (hl : l.length = C)
    (hi : i < C) : ∃ s, l[i]? = some s := by
  have : i < l.length := hl ▸ hi
  exact ⟨l[i], List.getElem?_eq_getElem this⟩

/-! ### Lemmas about `next_power_of_two` -/

theorem log2_floor_eq : ∀ fuel n : Nat, n ≤ fuel → log2_floor fuel n = Nat.log2 n := by
  intro fuel
  induction fuel with
  | zero =>
    intro n hn
    have h0 : n = 0 := by omega
    subst h0
    rw [Nat.log2]
    rfl
  | succ fuel ih =>
    intro n hn
    rw [Nat.log2]
    unfold log2_floor
    by_cases h2 : 2 ≤ n
    · rw [if_pos h2, if_pos h2, ih (n / 2) (by omega)]
    · rw [if_neg h2, if_neg h2]

theorem next_power_of_two_pow (n : Nat) : ∃ j, next_power_of_two n = 2 ^ j := by
  unfold next_power_of_two
  split
  · exact ⟨0, rfl⟩
  · exact ⟨log2_floor (n - 1) (n - 1) + 1, rfl⟩

theorem le_next_power_of_two (n : Nat) : n ≤ next_power_of_two n := by
  unfold next_power_of_two
  split
  · omega
  · rw [log2_floor_eq (n - 1) (n - 1) (le_refl _)]
    have h1 : n - 1 < 2 ^ (Nat.log2 (n - 1) + 1) := Nat.lt_log2_self
    omega

theorem next_power_of_two_le {n k : Nat} (h : n ≤ 2 ^ k) :
    next_power_of_two n ≤ 2 ^ k := by
  unfold next_power_of_two
  split
  · exact Nat.one_le_two_pow
  · rw [log2_floor_eq (n - 1) (n - 1) (le_refl _)]
    have hn : 2 ≤ n := by omega
    have h1 : Nat.log2 (n - 1) < k := (Nat.log2_lt (by omega)).2 (by omega)
    exact Nat.pow_le_pow_right (by omega) (by omega)

theorem next_power_of_two_goodcap {c : Nat} (h2 : 2 ≤ c) (hle : c ≤ 2 ^ 63) :
    GoodCap (next_power_of_two c) := by
  obtain ⟨j, hj⟩ := next_power_of_two_pow c
  have hle2 : next_power_of_two c ≤ 2 ^ 63 := next_power_of_two_le hle
  have hc2 : 2 ≤ next_power_of_two c := le_trans h2 (le_next_power_of_two c)
  refine ⟨hc2, ?_, ?_⟩
  · rw [hj]
    have hj63 : j ≤ 63 := by
      by_contra hgt
      have : 2 ^ 64 ≤ 2 ^ j := Nat.pow_le_pow_right (by omega) (by omega)
      have : 2 ^ 64 ≤ 2 ^ 63 := le_trans this (hj ▸ hle2)
      norm_num at this
    exact pow_dvd_pow 2 (by omega)
  · unfold W
    calc next_power_of_two c ≤ 2 ^ 63 := hle2
      _ < 2 ^ 64 := by norm_num

theorem wadd_inj {a b c : Nat} (hb : b < W) (hc : c < W) (h : wadd a b = wadd a c) :
    b = c := by
  have hm : b ≡ c [MOD W] := Nat.ModEq.add_left_cancel' a h
  have h3 : b % W = c % W := hm
  rwa [Nat.mod_eq_of_lt hb, Nat.mod_eq_of_lt hc] at h3

theorem add_mod_congr {a b C : Nat} (h : a % C = b % C) (k : Nat) :
    (a + k) % C = (b + k) % C :=
  Nat.ModEq.add_right k h

theorem head_pos_eq {C hd tl : Nat} (hdvd : C ∣ W) (hhd : hd < W) (htl : tl < W) :
    hd % C = (tl + wsub hd tl) % C := by
  conv_lhs => rw [wadd_wsub_cancel hhd htl]
  exact mod_W_mod_C hdvd _

theorem ne_of_wsub_pos {a b : Nat} (ha : a < W) (hb : b < W) (h : 0 < wsub a b) :
    a ≠ b := by
  intro heq
  subst heq
  rw [wsub_self ha] at h
  omega

/-! ### The invariant holds initially and is preserved -/

theorem contents_new (α : Type) (c : Nat) : (MpmcQueue.new α c).contents = [] := by
  simp [MpmcQueue.contents, MpmcQueue.new, wsub, Nat.mod_self]

theorem new_inv (α : Type) (c : Nat) (hCW : next_power_of_two c ≤ W) :
    QInv (next_power_of_two c) (MpmcQueue.new α c) := by
  refine ⟨rfl, rfl, by simp [MpmcQueue.new], W_pos, W_pos, ?_, ?_⟩
  · show wsub 0 0 ≤ _
    rw [wsub_self W_pos]
    omega
  · intro k hk s hs
    show slot_ok 0 (wsub 0 0) k s
    rw [wsub_self W_pos]
    have hkW : k < W := lt_of_lt_of_le hk hCW
    have hpos : (0 + k) % next_power_of_two c = k := by
      rw [Nat.zero_add, Nat.mod_eq_of_lt hk]
    rw [show (MpmcQueue.new α c).tail = 0 from rfl, hpos] at hs
    have hs2 : ((List.range (next_power_of_two c)).map
        (fun i => (⟨i, none⟩ : Slot α)))[k]? = some ⟨k, none⟩ := by
      rw [List.getElem?_map, List.getElem?_range hk]
      rfl
    rw [show (MpmcQueue.new α c).buffer = (List.range (next_power_of_two c)).map
        (fun i => (⟨i, none⟩ : Slot α)) from rfl, hs2] at hs
    injection hs with hs
    subst hs
    unfold slot_ok
    rw [if_neg (by omega)]
    show (k : Nat) = wadd 0 k
    rw [wadd, Nat.zero_add, Nat.mod_eq_of_lt hkW]


theorem send_spec {α : Type} {C : Nat} {q : MpmcQueue α} (hg : GoodCap C)
    (hq : QInv C q) (x : α) :
    (wsub q.head q.tail < C ∧
      q.send x = .ok { q with head := wadd q.head 1, buffer := q.buffer.set (q.head &&& q.mask) ⟨wadd q.head 1, some x⟩ } ∧
      QInv C { q with head := wadd q.head 1, buffer := q.buffer.set (q.head &&& q.mask) ⟨wadd q.head 1, some x⟩ } ∧
      MpmcQueue.contents { q with head := wadd q.head 1, buffer := q.buffer.set (q.head &&& q.mask) ⟨wadd q.head 1, some x⟩ } = q.contents ++ [x]) ∨
    (wsub q.head q.tail = C ∧ (q.send x = .full q x ∨ q.send x = .spin)) := by
  obtain ⟨hcap, hmask, hlen, hhd, htl, hle, hslots⟩ := hq
  obtain ⟨hC2, hdvd, hCW⟩ := hg
  obtain ⟨j, hj⟩ := goodcap_pow ⟨hC2, hdvd, hCW⟩
  have hC0 : 0 < C := by omega
  have hidx : q.head &&& q.mask = (q.tail + wsub q.head q.tail) % C := by
    rw [hmask, mask_mod hj, head_pos_eq hdvd hhd htl]
  by_cases hlt : wsub q.head q.tail < C
  · left
    have hklt : (q.tail + wsub q.head q.tail) % C < C := Nat.mod_lt _ hC0
    obtain ⟨s, hs⟩ := buffer_get hlen hklt
    have hso := hslots _ hlt s hs
    unfold slot_ok at hso
    rw [if_neg (lt_irrefl _)] at hso
    have hseq : s.sequence = q.head := by
      rw [hso]
      exact (wadd_wsub_cancel hhd htl).symm
    have hs' : q.buffer[q.head &&& q.mask]? = some s := by rw [hidx]; exact hs
    have hsend : q.send x = .ok { q with head := wadd q.head 1, buffer := q.buffer.set (q.head &&& q.mask) ⟨wadd q.head 1, some x⟩ } := by
      simp only [MpmcQueue.send, hs']
      rw [if_pos hseq]
    have hlen1 : wsub q.head q.tail + 1 < W := by omega
    have hwsub' : wsub (wadd q.head 1) q.tail = wsub q.head q.tail + 1 :=
      wsub_succ hhd htl hlen1
    have hlookup_ne : ∀ k, k < C → k ≠ wsub q.head q.tail →
        (q.buffer.set (q.head &&& q.mask)
          (⟨wadd q.head 1, some x⟩ : Slot α))[(q.tail + k) % C]? =
          q.buffer[(q.tail + k) % C]? := by
      intro k hk hne
      refine List.getElem?_set_ne ?_
      rw [hidx]
      intro heq
      exact hne (pos_inj hlt hk heq).symm
    have hlookup_eq : (q.buffer.set (q.head &&& q.mask)
        (⟨wadd q.head 1, some x⟩ : Slot α))[(q.tail + wsub q.head q.tail) % C]? =
        some ⟨wadd q.head 1, some x⟩ := by
      rw [← hidx]
      refine List.getElem?_set_self ?_
      rw [hidx, hlen]
      exact hklt
    refine ⟨hlt, hsend, ?_, ?_⟩
    · refine ⟨hcap, hmask, by simpa using hlen, wadd_lt _ _, htl, ?_, ?_⟩
      · show wsub (wadd q.head 1) q.tail ≤ C
        rw [hwsub']
        omega
      · intro k hk s2 hs2
        show slot_ok q.tail (wsub (wadd q.head 1) q.tail) k s2
        rw [hwsub']
        by_cases hkl : k = wsub q.head q.tail
        · subst hkl
          rw [hlookup_eq] at hs2
          injection hs2 with hs2
          subst hs2
          unfold slot_ok
          rw [if_pos (by omega)]
          refine ⟨?_, x, rfl⟩
          show wadd q.head 1 = wadd q.tail (wsub q.head q.tail + 1)
          conv_lhs => rw [wadd_wsub_cancel hhd htl]
          rw [wadd_wadd]
        · rw [hlookup_ne k hk hkl] at hs2
          have hold := hslots k hk s2 hs2
          unfold slot_ok at hold ⊢
          by_cases hkl2 : k < wsub q.head q.tail
          · rw [if_pos hkl2] at hold
            rw [if_pos (by omega)]
            exact hold
          · rw [if_neg hkl2] at hold
            rw [if_neg (by omega)]
            exact hold
    · show MpmcQueue.contents _ = MpmcQueue.contents q ++ [x]
      unfold MpmcQueue.contents
      simp only [hcap]
      show (List.range (wsub (wadd q.head 1) q.tail)).filterMap _ = _
      rw [hwsub', List.range_succ, List.filterMap_append]
      congr 1
      · refine List.filterMap_congr ?_
        intro k hkmem
        have hk : k < wsub q.head q.tail := List.mem_range.1 hkmem
        rw [hlookup_ne k (by omega) (by omega)]
      · simp [List.filterMap_cons, hlookup_eq]
  · right
    have hlenC : wsub q.head q.tail = C := by omega
    have hposeq : (q.tail + wsub q.head q.tail) % C = (q.tail + 0) % C := by
      rw [hlenC, Nat.add_zero, Nat.add_mod_right]
    have hklt0 : (q.tail + 0) % C < C := Nat.mod_lt _ hC0
    obtain ⟨s, hs⟩ := buffer_get hlen hklt0
    have hso := hslots 0 hC0 s hs
    unfold slot_ok at hso
    rw [if_pos (by omega)] at hso
    have hs' : q.buffer[q.head &&& q.mask]? = some s := by
      rw [hidx, hposeq]
      exact hs
    have h1 := wadd_wsub_cancel hhd htl
    rw [hlenC] at h1
    have hseq_ne : s.sequence ≠ q.head := by
      rw [hso.1]
      intro heq
      rw [h1] at heq
      have h2 : 0 + 1 = C := wadd_inj (by have := W_pos; omega) hCW heq
      omega
    refine ⟨hlenC, ?_⟩
    by_cases hlt2 : s.sequence < q.head
    · left
      simp only [MpmcQueue.send, hs']
      rw [if_neg hseq_ne, if_pos hlt2, if_pos (le_of_eq (hcap.trans hlenC.symm))]
    · right
      simp only [MpmcQueue.send, hs']
      rw [if_neg hseq_ne, if_neg hlt2]

theorem recv_spec {α : Type} {C : Nat} {q : MpmcQueue α} (hg : GoodCap C)
    (hq : QInv C q) :
    (0 < wsub q.head q.tail ∧ ∃ v,
      q.recv = .received { q with tail := wadd q.tail 1, buffer := q.buffer.set (q.tail &&& q.mask) ⟨wadd q.tail q.capacity, none⟩ } v ∧
      QInv C { q with tail := wadd q.tail 1, buffer := q.buffer.set (q.tail &&& q.mask) ⟨wadd q.tail q.capacity, none⟩ } ∧
      q.contents = v :: MpmcQueue.contents { q with tail := wadd q.tail 1, buffer := q.buffer.set (q.tail &&& q.mask) ⟨wadd q.tail q.capacity, none⟩ }) ∨
    (wsub q.head q.tail = 0 ∧ (q.recv = .empty q ∨ q.recv = .spin)) := by
  obtain ⟨hcap, hmask, hlen, hhd, htl, hle, hslots⟩ := hq
  obtain ⟨hC2, hdvd, hCW⟩ := hg
  obtain ⟨j, hj⟩ := goodcap_pow ⟨hC2, hdvd, hCW⟩
  have hC0 : 0 < C := by omega
  have hidx0 : q.tail &&& q.mask = (q.tail + 0) % C := by
    rw [hmask, mask_mod hj, Nat.add_zero]
  have hklt0 : (q.tail + 0) % C < C := Nat.mod_lt _ hC0
  obtain ⟨s, hs⟩ := buffer_get hlen hklt0
  have hso := hslots 0 hC0 s hs
  unfold slot_ok at hso
  have hs' : q.buffer[q.tail &&& q.mask]? = some s := by rw [hidx0]; exact hs
  by_cases hpos : 0 < wsub q.head q.tail
  · left
    rw [if_pos hpos] at hso
    obtain ⟨hsseq, v, hsdata⟩ := hso
    have hseq : s.sequence = wadd q.tail 1 := by rw [hsseq]
    have hrecv : q.recv = .received { q with tail := wadd q.tail 1, buffer := q.buffer.set (q.tail &&& q.mask) ⟨wadd q.tail q.capacity, none⟩ } v := by
      simp only [MpmcQueue.recv, hs']
      rw [if_pos hseq, hsdata]
    have hwsub' : wsub q.head (wadd q.tail 1) = wsub q.head q.tail - 1 :=
      wsub_shift hhd htl hpos
    have hpos1 : ∀ k : Nat, (wadd q.tail 1 + k) % C = (q.tail + (1 + k)) % C := by
      intro k
      have h1 : (q.tail + 1) % W % C = (q.tail + 1) % C := mod_W_mod_C hdvd _
      have h2 := add_mod_congr h1 k
      rw [wadd]
      rw [h2, Nat.add_assoc]
    have hCm1 : 1 + (C - 1) = C := by omega
    have hidx0' : q.tail &&& q.mask = q.tail % C := by rw [hidx0, Nat.add_zero]
    have hlookup_last : (q.buffer.set (q.tail &&& q.mask)
        (⟨wadd q.tail C, none⟩ : Slot α))[(wadd q.tail 1 + (C - 1)) % C]? =
        some ⟨wadd q.tail C, none⟩ := by
      rw [hpos1, hCm1, Nat.add_mod_right, ← hidx0']
      refine List.getElem?_set_self ?_
      rw [hidx0', hlen]
      exact Nat.mod_lt _ hC0
    have hlookup_ne : ∀ k, k < C - 1 →
        (q.buffer.set (q.tail &&& q.mask)
          (⟨wadd q.tail C, none⟩ : Slot α))[(wadd q.tail 1 + k) % C]? =
          q.buffer[(q.tail + (1 + k)) % C]? := by
      intro k hk
      rw [hpos1]
      refine List.getElem?_set_ne ?_
      rw [hidx0]
      intro heq
      have h3 := pos_inj hC0 (by omega) heq
      omega
    refine ⟨hpos, v, hrecv, ?_, ?_⟩
    · refine ⟨hcap, hmask, by simpa using hlen, hhd, wadd_lt _ _, ?_, ?_⟩
      · show wsub q.head (wadd q.tail 1) ≤ C
        rw [hwsub']
        omega
      · intro k hk s2 hs2
        rw [hcap] at hs2
        show slot_ok (wadd q.tail 1) (wsub q.head (wadd q.tail 1)) k s2
        rw [hwsub']
        by_cases hkl : k = C - 1
        · subst hkl
          rw [hlookup_last] at hs2
          injection hs2 with hs2
          subst hs2
          unfold slot_ok
          rw [if_neg (by omega)]
          show wadd q.tail C = wadd (wadd q.tail 1) (C - 1)
          rw [wadd_wadd, hCm1]
        · rw [hlookup_ne k (by omega)] at hs2
          have hbound : 1 + k < C := by omega
          have hold := hslots (1 + k) hbound s2 hs2
          unfold slot_ok at hold ⊢
          by_cases hkl2 : k < wsub q.head q.tail - 1
          · rw [if_pos (by omega)] at hold
            rw [if_pos hkl2]
            refine ⟨?_, hold.2⟩
            have harg : 1 + k + 1 = 1 + (k + 1) := by omega
            rw [hold.1, harg, wadd_wadd]
          · rw [if_neg (by omega)] at hold
            rw [if_neg hkl2]
            rw [hold, wadd_wadd]
    · show q.contents = v :: MpmcQueue.contents _
      unfold MpmcQueue.contents
      simp only [hcap]
      show (List.range (wsub q.head q.tail)).filterMap _ =
        v :: (List.range (wsub q.head (wadd q.tail 1))).filterMap _
      rw [hwsub']
      conv_lhs => rw [show wsub q.head q.tail = (wsub q.head q.tail - 1) + 1 by omega,
        List.range_succ_eq_map]
      have hf0 : (match q.buffer[(q.tail + 0) % C]? with
          | some s => s.data | none => none) = some v := by
        simp only [hs]
        exact hsdata
      simp only [List.filterMap_cons, hf0, List.filterMap_map]
      congr 1
      refine List.filterMap_congr ?_
      intro k hkmem
      have hk : k < wsub q.head q.tail - 1 := List.mem_range.1 hkmem
      show (match q.buffer[(q.tail + Nat.succ k) % C]? with
          | some s => s.data | none => none) = _
      rw [show q.tail + Nat.succ k = q.tail + (1 + k) by omega, ← hlookup_ne k (by omega)]
  · right
    have hlen0 : wsub q.head q.tail = 0 := by omega
    rw [if_neg (by omega)] at hso
    rw [wadd_zero q.tail htl] at hso
    have hseq_ne : s.sequence ≠ wadd q.tail 1 := by
      rw [hso]
      intro heq
      rw [← wadd_zero q.tail htl] at heq
      nth_rewrite 2 [wadd_zero q.tail htl] at heq
      have h2 : (0 : Nat) = 1 := wadd_inj W_pos (by have := W_pos; omega) heq
      omega
    refine ⟨hlen0, ?_⟩
    by_cases hlt2 : s.sequence < wadd q.tail 1
    · left
      simp only [MpmcQueue.recv, hs']
      rw [if_neg hseq_ne, if_pos hlt2]
    · right
      simp only [MpmcQueue.recv, hs']
      rw [if_neg hseq_ne, if_neg hlt2]

theorem run_inv {α : Type} {C : Nat} (hg : GoodCap C) :
    ∀ (ops : List (Op α)) (q qf : MpmcQueue α) (sent recvd : List α),
      QInv C q → run q ops = some (qf, sent, recvd) →
      QInv C qf ∧ recvd ++ qf.contents = q.contents ++ sent := by
  intro ops
  induction ops with
  | nil =>
    intro q qf sent recvd hq hrun
    simp only [run, Option.some.injEq, Prod.mk.injEq] at hrun
    obtain ⟨h1, h2, h3⟩ := hrun
    subst h1; subst h2; subst h3
    simpa using hq
  | cons op rest ih =>
    intro q qf sent recvd hq hrun
    cases op with
    | send x =>
      rcases send_spec hg hq x with ⟨hlt, hsend, hinv', hcnt⟩ | ⟨hfull, hcase⟩
      · simp only [run, hsend, Option.map_eq_some'] at hrun
        obtain ⟨⟨qf0, s0, r0⟩, hrun0, heq⟩ := hrun
        simp only [Prod.mk.injEq] at heq
        obtain ⟨h1, h2, h3⟩ := heq
        subst h1; subst h2; subst h3
        obtain ⟨hinvf, hrel⟩ := ih _ _ _ _ hinv' hrun0
        refine ⟨hinvf, ?_⟩
        rw [hrel, hcnt]
        simp
      · rcases hcase with hfullr | hspin
        · simp only [run, hfullr] at hrun
          exact ih _ _ _ _ hq hrun
        · simp only [run, hspin] at hrun
          cases hrun
    | recv =>
      rcases recv_spec hg hq with ⟨hpos, v, hrecv, hinv', hcnt⟩ | ⟨h0, hcase⟩
      · simp only [run, hrecv, Option.map_eq_some'] at hrun
        obtain ⟨⟨qf0, s0, r0⟩, hrun0, heq⟩ := hrun
        simp only [Prod.mk.injEq] at heq
        obtain ⟨h1, h2, h3⟩ := heq
        subst h1; subst h2; subst h3
        obtain ⟨hinvf, hrel⟩ := ih _ _ _ _ hinv' hrun0
        refine ⟨hinvf, ?_⟩
        rw [List.cons_append, hrel, hcnt]
        simp
      · rcases hcase with hemp | hspin
        · simp only [run, hemp] at hrun
          exact ih _ _ _ _ hq hrun
        · simp only [run, hspin] at hrun
          cases hrun

theorem drop_loop_spec {α : Type} {C : Nat} (hg : GoodCap C) :
    ∀ (n : Nat) (q : MpmcQueue α), QInv C q → wsub q.head q.tail = n →
      (MpmcQueue.drop_loop n q).2 = q.contents := by
  intro n
  induction n with
  | zero =>
    intro q hq h0
    simp [MpmcQueue.drop_loop, MpmcQueue.contents, h0]
  | succ n ih =>
    intro q hq hn
    have hq0 := hq
    obtain ⟨hcap, hmask, hlen, hhd, htl, hle, hslots⟩ := hq0
    obtain ⟨hC2, hdvd, hCW⟩ := hg
    obtain ⟨j, hj⟩ := goodcap_pow ⟨hC2, hdvd, hCW⟩
    have hC0 : 0 < C := by omega
    have hwpos : 0 < wsub q.head q.tail := by omega
    rcases recv_spec ⟨hC2, hdvd, hCW⟩ hq with ⟨-, v, hrecv, hinv', hcnt⟩ | ⟨h0, -⟩
    · have hne : q.head ≠ q.tail := ne_of_wsub_pos hhd htl hwpos
      have hidx0 : q.tail &&& q.mask = (q.tail + 0) % C := by
        rw [hmask, mask_mod hj, Nat.add_zero]
      have hklt0 : (q.tail + 0) % C < C := Nat.mod_lt _ hC0
      obtain ⟨s, hs⟩ := buffer_get hlen hklt0
      have hso := hslots 0 hC0 s hs
      unfold slot_ok at hso
      rw [if_pos hwpos] at hso
      obtain ⟨hsseq, v0, hsdata⟩ := hso
      have hs' : q.buffer[q.tail &&& q.mask]? = some s := by rw [hidx0]; exact hs
      have hseq : s.sequence = wadd q.tail 1 := by rw [hsseq]
      have hrecv2 : q.recv = .received { q with tail := wadd q.tail 1, buffer := q.buffer.set (q.tail &&& q.mask) ⟨wadd q.tail q.capacity, none⟩ } v0 := by
        simp only [MpmcQueue.recv, hs']
        rw [if_pos hseq, hsdata]
      rw [hrecv2] at hrecv
      injection hrecv with hqe hv
      subst hv
      have hstep : MpmcQueue.drop_loop (n + 1) q =
          ((MpmcQueue.drop_loop n { q with tail := wadd q.tail 1, buffer := q.buffer.set (q.tail &&& q.mask) ⟨wadd q.tail q.capacity, none⟩ }).1,
           v0 :: (MpmcQueue.drop_loop n { q with tail := wadd q.tail 1, buffer := q.buffer.set (q.tail &&& q.mask) ⟨wadd q.tail q.capacity, none⟩ }).2) := by
        simp only [MpmcQueue.drop_loop, hs']
        rw [if_neg hne, if_pos hseq, hsdata]
      have hlen' : wsub (MpmcQueue.head { q with tail := wadd q.tail 1, buffer := q.buffer.set (q.tail &&& q.mask) ⟨wadd q.tail q.capacity, none⟩ })
          (MpmcQueue.tail { q with tail := wadd q.tail 1, buffer := q.buffer.set (q.tail &&& q.mask) ⟨wadd q.tail q.capacity, none⟩ }) = n := by
        show wsub q.head (wadd q.tail 1) = n
        rw [wsub_shift hhd htl hwpos, hn]
        omega
      rw [hstep]
      show v0 :: (MpmcQueue.drop_loop n _).2 = q.contents
      rw [ih _ hinv' hlen', hcnt]
    · omega

/-- Every completed workload from a fresh queue ends in an invariant state, and
the received values followed by the remaining contents are exactly the
successfully sent values. -/
theorem run_new {c : Nat} (h2 : 2 ≤ c) (hle : c ≤ 2 ^ 63)
    {ops : List (Op Nat)} {qf : MpmcQueue Nat} {sent recvd : List Nat}
    (hrun : run (MpmcQueue.new Nat c) ops = some (qf, sent, recvd)) :
    QInv (next_power_of_two c) qf ∧ recvd ++ qf.contents = sent := by
  have hg := next_power_of_two_goodcap h2 hle
  have hinit := new_inv Nat c (le_of_lt hg.2.2)
  obtain ⟨hi, hrel⟩ := run_inv hg ops _ _ _ _ hinit hrun
  rw [contents_new] at hrel
  exact ⟨hi, by simpa using hrel⟩

theorem offset_pos {C tl p : Nat} (hC : 0 < C) (hp : p < C) :
    (tl + (p + C - tl % C) % C) % C = p := by
  have hr : tl % C < C := Nat.mod_lt _ hC
  by_cases hpr : tl % C ≤ p
  · have h1 : (p + C - tl % C) % C = p - tl % C := by
      rw [show p + C - tl % C = p - tl % C + C by omega, Nat.add_mod_right,
        Nat.mod_eq_of_lt (by omega)]
    rw [h1, ← Nat.mod_add_mod, show tl % C + (p - tl % C) = p by omega,
      Nat.mod_eq_of_lt hp]
  · have h1 : (p + C - tl % C) % C = p + C - tl % C := Nat.mod_eq_of_lt (by omega)
    rw [h1, ← Nat.mod_add_mod, show tl % C + (p + C - tl % C) = p + C by omega,
      Nat.add_mod_right, Nat.mod_eq_of_lt hp]

/-- Running `n` overwriting sends of the value `9` on the degenerate
capacity-1 queue that has already lost an item: each send observes
`sequence = head`, claims the single slot and overwrites it, so all sends
report success while `tail` never moves. -/
theorem cap1_runaway_run (suffix : List (Op Nat)) :
    ∀ n h : Nat, h < W →
      run (⟨[⟨h, some 9⟩], 1, 0, h, 0⟩ : MpmcQueue Nat)
        (List.replicate n (.send 9) ++ suffix) =
      (run (⟨[⟨wadd h n, some 9⟩], 1, 0, wadd h n, 0⟩ : MpmcQueue Nat) suffix).map
        (fun r => (r.1, List.replicate n 9 ++ r.2.1, r.2.2)) := by
  intro n
  induction n with
  | zero =>
    intro h hW
    rw [wadd_zero h hW, List.replicate, List.nil_append]
    cases hr : run (⟨[⟨h, some 9⟩], 1, 0, h, 0⟩ : MpmcQueue Nat) suffix <;> simp
  | succ n ih =>
    intro h hW
    rw [List.replicate_succ, List.cons_append]
    have hsend : (⟨[⟨h, some 9⟩], 1, 0, h, 0⟩ : MpmcQueue Nat).send 9 =
        .ok (⟨[⟨wadd h 1, some 9⟩], 1, 0, wadd h 1, 0⟩ : MpmcQueue Nat) := by
      simp [MpmcQueue.send]
    simp only [run, hsend]
    rw [ih (wadd h 1) (wadd_lt _ _), wadd_wadd, show 1 + n = n + 1 by omega]
    cases hr : run (⟨[⟨wadd h (n + 1), some 9⟩], 1, 0, wadd h (n + 1), 0⟩ :
        MpmcQueue Nat) suffix <;> simp [List.replicate_succ]

/-! ### Claim theorems for the scalar queue -/

/-- C1 counterexample: the claim fails as stated on a capacity-1 queue.  After
`send 1, send 9` the second send overwrites the full slot (its sequence equals
`head` again at effective capacity 1), and after `2^64 - 2` further
overwriting sends the indices wrap so far that the queue looks empty again;
`send 3` then succeeds normally and `recv` returns `3`, although the first
sent and never received value was `1` — so the received sequence `[3]` is not
a prefix of the sent sequence. -/
theorem mpmc_C1_counterexample : ¬ FifoSpec 1 := by
  intro hspec
  have h1 : (MpmcQueue.new Nat 1).send 1 =
      .ok (⟨[⟨1, some 1⟩], 1, 0, 1, 0⟩ : MpmcQueue Nat) := by decide
  have h2 : (⟨[⟨1, some 1⟩], 1, 0, 1, 0⟩ : MpmcQueue Nat).send 9 =
      .ok (⟨[⟨2, some 9⟩], 1, 0, 2, 0⟩ : MpmcQueue Nat) := by decide
  have hw : wadd 2 (W - 2) = 0 := by decide
  have h3 : run (⟨[⟨(0 : Nat), some 9⟩], 1, 0, 0, 0⟩ : MpmcQueue Nat)
      [.send 3, .recv] =
      some ((⟨[⟨1, none⟩], 1, 0, 1, 1⟩ : MpmcQueue Nat), [3], [3]) := by decide
  have hbig := cap1_runaway_run [.send 3, .recv] (W - 2) 2 (by decide)
  rw [hw] at hbig
  rw [h3] at hbig
  simp only [Option.map_some'] at hbig
  have step1 : ∀ rest : List (Op Nat), run (MpmcQueue.new Nat 1) (.send 1 :: rest) =
      (run (⟨[⟨1, some 1⟩], 1, 0, 1, 0⟩ : MpmcQueue Nat) rest).map
        (fun r => (r.1, 1 :: r.2.1, r.2.2)) := by
    intro rest
    simp only [run, h1]
  have step2 : ∀ rest : List (Op Nat),
      run (⟨[⟨1, some 1⟩], 1, 0, 1, 0⟩ : MpmcQueue Nat) (.send 9 :: rest) =
      (run (⟨[⟨2, some 9⟩], 1, 0, 2, 0⟩ : MpmcQueue Nat) rest).map
        (fun r => (r.1, 9 :: r.2.1, r.2.2)) := by
    intro rest
    simp only [run, h2]
  have hrun : run (MpmcQueue.new Nat 1)
      (.send 1 :: .send 9 :: (List.replicate (W - 2) (.send 9) ++ [.send 3, .recv])) =
      some ((⟨[⟨1, none⟩], 1, 0, 1, 1⟩ : MpmcQueue Nat),
        1 :: 9 :: (List.replicate (W - 2) 9 ++ [3]), [3]) := by
    rw [step1, step2, hbig]
    rfl
  obtain ⟨rest, hr⟩ := hspec _ _ _ _ hrun
  rw [List.cons_append, List.nil_append] at hr
  injection hr with hr1 hr2
  exact absurd hr1 (by decide)

/-- C1 (amended: the single-producer single-consumer FIFO property holds for
requested capacities `c` with `2 ≤ c ≤ 2^63`; at capacity 1 the code loses
items, see the counterexample): for every completed sequential workload the
received values are a prefix, in order, of the successfully sent values; and
the concrete capacity-2 wraparound scenario
`send 1, send 2, recv = 1, recv = 2, send 3, send 4, recv = 3, recv = 4`
succeeds exactly as listed. -/
theorem mpmc_C1_fifo (c : Nat) (h2 : 2 ≤ c) (hle : c ≤ 2 ^ 63) :
    FifoSpec c ∧
    run (MpmcQueue.new Nat 2)
      [.send 1, .send 2, .recv, .recv, .send 3, .send 4, .recv, .recv] =
    some ((⟨[⟨4, none⟩, ⟨5, none⟩], 2, 1, 4, 4⟩ : MpmcQueue Nat),
      [1, 2, 3, 4], [1, 2, 3, 4]) := by
  refine ⟨?_, by decide⟩
  intro ops qf sent recvd hrun
  obtain ⟨-, hrel⟩ := run_new h2 hle hrun
  exact ⟨qf.contents, hrel⟩

/-- C1 witness: the amended FIFO theorem applied at requested capacity 2. -/
theorem mpmc_C1_fifo_witness :
    FifoSpec 2 ∧
    run (MpmcQueue.new Nat 2)
      [.send 1, .send 2, .recv, .recv, .send 3, .send 4, .recv, .recv] =
    some ((⟨[⟨4, none⟩, ⟨5, none⟩], 2, 1, 4, 4⟩ : MpmcQueue Nat),
      [1, 2, 3, 4], [1, 2, 3, 4]) :=
  mpmc_C1_fifo 2 (by norm_num) (by norm_num)

/-- C2 counterexample: the slot-sequence invariant fails as stated on a
capacity-1 queue.  In the reachable state after `send 7, send 8` the single
slot has `sequence = 2` while its current ticket (the first ticket of its
position at or after `tail = 0`) is `0`, so the sequence equals neither the
ticket nor the ticket plus one. -/
theorem mpmc_C2_counterexample : ¬ SlotSeqSpec 1 := by
  intro hspec
  have hreach : Reachable 1 (⟨[⟨2, some 8⟩], 1, 0, 2, 0⟩ : MpmcQueue Nat) :=
    ⟨[.send 7, .send 8], [7, 8], [], by decide⟩
  have h := (hspec _ hreach 0 (by decide) ⟨2, some 8⟩ (by decide)).2
  exact absurd h (by decide)

/-- C2 (amended: the invariant holds for requested capacities `c` with
`2 ≤ c ≤ 2^63`; at capacity 1 a full-queue send overwrites the slot and
breaks it, see the counterexample): in every reachable state every slot's
sequence equals the current ticket of its position — a value congruent to the
position modulo the capacity — or that ticket plus one; and immediately after
construction slot `p` has `sequence = p`. -/
theorem mpmc_C2_slot_sequence (c : Nat) (h2 : 2 ≤ c) (hle : c ≤ 2 ^ 63) :
    SlotSeqSpec c ∧
    (∀ p, ∀ s : Slot Nat, (MpmcQueue.new Nat c).buffer[p]? = some s →
      s.sequence = p) := by
  have hg := next_power_of_two_goodcap h2 hle
  obtain ⟨hC2, hdvd, hCW⟩ := hg
  have hC0 : 0 < next_power_of_two c := by omega
  constructor
  · intro q hq p hp s hs
    obtain ⟨ops, sent, recvd, hrun⟩ := hq
    obtain ⟨hinv, -⟩ := run_new h2 hle hrun
    obtain ⟨hcap, hmask, hlen, hhd, htl, hle2, hslots⟩ := hinv
    rw [hcap] at hp
    have hct : current_ticket q p =
        wadd q.tail ((p + next_power_of_two c - q.tail % next_power_of_two c) %
          next_power_of_two c) := by
      unfold current_ticket
      rw [hcap]
    have hk0lt : (p + next_power_of_two c - q.tail % next_power_of_two c) %
        next_power_of_two c < next_power_of_two c := Nat.mod_lt _ hC0
    have hpos := @offset_pos (next_power_of_two c) q.tail p hC0 hp
    have hs' : q.buffer[(q.tail +
        (p + next_power_of_two c - q.tail % next_power_of_two c) %
          next_power_of_two c) % next_power_of_two c]? = some s := by
      rw [hpos]
      exact hs
    have hso := hslots _ hk0lt s hs'
    unfold slot_ok at hso
    constructor
    · rw [hct, hcap, wadd]
      rw [mod_W_mod_C hdvd]
      exact hpos
    · by_cases hkl : (p + next_power_of_two c - q.tail % next_power_of_two c) %
          next_power_of_two c < wsub q.head q.tail
      · right
        rw [if_pos hkl] at hso
        rw [hct, wadd_wadd, hso.1]
      · left
        rw [if_neg hkl] at hso
        rw [hct, hso]
  · intro p s hs
    have hlen : ((List.range (next_power_of_two c)).map
        (fun i => (⟨i, none⟩ : Slot Nat))).length = next_power_of_two c := by simp
    have hps : (MpmcQueue.new Nat c).buffer = (List.range (next_power_of_two c)).map
        (fun i => (⟨i, none⟩ : Slot Nat)) := rfl
    rw [hps] at hs
    have hplt : p < next_power_of_two c := by
      by_contra hge
      rw [List.getElem?_eq_none (by simpa using (by omega : next_power_of_two c ≤ p))] at hs
      cases hs
    rw [List.getElem?_map, List.getElem?_range hplt] at hs
    simp only [Option.map_some'] at hs
    injection hs with hs
    subst hs
    rfl

/-- C2 witness: the amended slot-sequence theorem applied at requested
capacity 2. -/
theorem mpmc_C2_slot_sequence_witness :
    SlotSeqSpec 2 ∧
    (∀ p, ∀ s : Slot Nat, (MpmcQueue.new Nat 2).buffer[p]? = some s →
      s.sequence = p) :=
  mpmc_C2_slot_sequence 2 (by norm_num) (by norm_num)

/-- C7 counterexample: the claim fails as stated on a capacity-1 queue.  After
`send 7, send 8` (the second send overwrites the full slot and still advances
`head`) the reachable state has `len = 2 > 1 = capacity`. -/
theorem mpmc_C7_counterexample : ¬ LenSpec 1 := by
  intro hspec
  have hreach : Reachable 1 (⟨[⟨2, some 8⟩], 1, 0, 2, 0⟩ : MpmcQueue Nat) :=
    ⟨[.send 7, .send 8], [7, 8], [], by decide⟩
  have h := (hspec _ hreach).1
  exact absurd h (by decide)

/-- C7 (amended: the len/is_empty/is_full invariant holds for requested
capacities `c` with `2 ≤ c ≤ 2^63`; at capacity 1 an overwriting send drives
`len` above `capacity`, see the counterexample): in every reachable state
`0 ≤ len ≤ capacity`, `is_empty` holds iff `len = 0` and `is_full` holds iff
`len = capacity`. -/
theorem mpmc_C7_len (c : Nat) (h2 : 2 ≤ c) (hle : c ≤ 2 ^ 63) : LenSpec c := by
  intro q hq
  obtain ⟨ops, sent, recvd, hrun⟩ := hq
  obtain ⟨hinv, -⟩ := run_new h2 hle hrun
  obtain ⟨hcap, hmask, hlen, hhd, htl, hwle, -⟩ := hinv
  refine ⟨?_, ?_, ?_⟩
  · simp only [MpmcQueue.len]
    omega
  · simp only [MpmcQueue.is_empty, MpmcQueue.len, beq_iff_eq]
    constructor
    · intro heq
      rw [heq, wsub_self htl]
    · intro h0
      have hh := wadd_wsub_cancel hhd htl
      rw [h0, wadd_zero _ htl] at hh
      exact hh
  · simp only [MpmcQueue.is_full, MpmcQueue.len, decide_eq_true_eq]
    omega

/-- C7 witness: the amended len theorem applied at requested capacity 2. -/
theorem mpmc_C7_len_witness : LenSpec 2 :=
  mpmc_C7_len 2 (by norm_num) (by norm_num)

/-- C8 counterexample: the claim fails as stated on a capacity-1 queue.  After
`send 7, send 8` the values 7 and 8 were both successfully sent and never
received, yet the teardown drain destructs nothing: the single slot's
sequence is `2`, not `tail + 1 = 1`, so the drain stops immediately and both
payloads leak. -/
theorem mpmc_C8_counterexample : ¬ DrainSpec 1 := by
  intro hspec
  have h := hspec [.send 7, .send 8] (⟨[⟨2, some 8⟩], 1, 0, 2, 0⟩ : MpmcQueue Nat)
    [7, 8] [] (by decide)
  exact absurd h (by decide)

/-- C8 (amended: the teardown-drain property holds for requested capacities
`c` with `2 ≤ c ≤ 2^63`; at capacity 1 an overwriting send leaks payloads,
see the counterexample): after any completed workload the drop drain walks
from `tail`, destructs exactly the successfully sent but never received
payloads, in order, each exactly once, and stops at the first non-full
slot. -/
theorem mpmc_C8_drain (c : Nat) (h2 : 2 ≤ c) (hle : c ≤ 2 ^ 63) : DrainSpec c := by
  intro ops qf sent recvd hrun
  obtain ⟨hinv, hrel⟩ := run_new h2 hle hrun
  have hg := next_power_of_two_goodcap h2 hle
  unfold MpmcQueue.drop_drain
  rw [drop_loop_spec hg _ _ hinv rfl]
  exact hrel

/-- C8 witness: the amended drain theorem applied at requested capacity 2. -/
theorem mpmc_C8_drain_witness : DrainSpec 2 :=
  mpmc_C8_drain 2 (by norm_num) (by norm_num)

/-- C3: whenever `send` reports `Full` it returns the very item passed in and
leaves the queue state unchanged, and whenever `recv` reports empty it leaves
the queue state unchanged (both hold by construction of the failure paths).
The claim's concrete capacity-1 scenario, however, exhibits the capacity-1
code bug: on the full queue `send 8` observes `sequence = head` again,
returns success and overwrites item 7 — the claim expects `Full(8)` — and
the subsequent `recv` spins forever (sequence is ahead of the expected
ticket), even though the state reports `is_full`. -/
theorem mpmc_C3_failure_behavior :
    (∀ (q q' : MpmcQueue Nat) (x x' : Nat), q.send x = .full q' x' → q' = q ∧ x' = x) ∧
    (∀ q q' : MpmcQueue Nat, q.recv = .empty q' → q' = q) ∧
    ((MpmcQueue.new Nat 1).send 7 = .ok (⟨[⟨1, some 7⟩], 1, 0, 1, 0⟩ : MpmcQueue Nat) ∧
     (⟨[⟨1, some 7⟩], 1, 0, 1, 0⟩ : MpmcQueue Nat).send 8 =
       .ok (⟨[⟨2, some 8⟩], 1, 0, 2, 0⟩ : MpmcQueue Nat) ∧
     (⟨[⟨2, some 8⟩], 1, 0, 2, 0⟩ : MpmcQueue Nat).recv = .spin ∧
     (⟨[⟨2, some 8⟩], 1, 0, 2, 0⟩ : MpmcQueue Nat).is_full = true) := by
  refine ⟨?_, ?_, by decide, by decide, by decide, by decide⟩
  · intro q q' x x' h
    simp only [MpmcQueue.send] at h
    split at h
    · exact SendResult.noConfusion h
    · split at h
      · exact SendResult.noConfusion h
      · split at h
        · split at h
          · injection h with ha hb
            exact ⟨ha.symm, hb.symm⟩
          · exact SendResult.noConfusion h
        · exact SendResult.noConfusion h
  · intro q q' h
    simp only [MpmcQueue.recv] at h
    split at h
    · exact RecvResult.noConfusion h
    · split at h
      · split at h
        · exact RecvResult.noConfusion h
        · exact RecvResult.noConfusion h
      · split at h
        · injection h with ha
          exact ha.symm
        · exact RecvResult.noConfusion h

/-- C3 witness: the failure-behaviour theorem applied to a concrete full
capacity-2 queue (`send 3` returns `Full` with the item and state intact). -/
theorem mpmc_C3_failure_behavior_witness :
    (⟨[⟨1, some 1⟩, ⟨2, some 2⟩], 2, 1, 2, 0⟩ : MpmcQueue Nat) =
      (⟨[⟨1, some 1⟩, ⟨2, some 2⟩], 2, 1, 2, 0⟩ : MpmcQueue Nat) ∧ (3 : Nat) = 3 :=
  mpmc_C3_failure_behavior.1 _ _ 3 3 (by decide)

/-- C4: for every requested capacity `c > 0` the scalar queue's capacity is
the least power of two at or above `c`; the vector queue's capacity is the
larger of that power of two and twice the vector width 4, hence at least 8;
and a capacity-10 scalar queue reports capacity 16. -/
theorem mpmc_C4_capacity (c : Nat) (hc : 0 < c) :
    (∃ j, (MpmcQueue.new Nat c).capacity = 2 ^ j) ∧
    c ≤ (MpmcQueue.new Nat c).capacity ∧
    (∀ m, (∃ j, m = 2 ^ j) → c ≤ m → (MpmcQueue.new Nat c).capacity ≤ m) ∧
    (SimdMpmcQueue.new Nat c).capacity = max ((MpmcQueue.new Nat c).capacity) (4 * 2) ∧
    8 ≤ (SimdMpmcQueue.new Nat c).capacity ∧
    (MpmcQueue.new Nat 10).capacity = 16 := by
  refine ⟨?_, ?_, ?_, rfl, ?_, by decide⟩
  · exact next_power_of_two_pow c
  · exact le_next_power_of_two c
  · intro m hm hcm
    obtain ⟨j, hj⟩ := hm
    subst hj
    exact next_power_of_two_le hcm
  · show 8 ≤ max (next_power_of_two c) (4 * 2)
    exact le_max_right _ _

/-- C4 witness: the capacity theorem applied at requested capacity 10. -/
theorem mpmc_C4_capacity_witness :
    (∃ j, (MpmcQueue.new Nat 10).capacity = 2 ^ j) ∧
    10 ≤ (MpmcQueue.new Nat 10).capacity ∧
    (∀ m, (∃ j, m = 2 ^ j) → 10 ≤ m → (MpmcQueue.new Nat 10).capacity ≤ m) ∧
    (SimdMpmcQueue.new Nat 10).capacity = max ((MpmcQueue.new Nat 10).capacity) (4 * 2) ∧
    8 ≤ (SimdMpmcQueue.new Nat 10).capacity ∧
    (MpmcQueue.new Nat 10).capacity = 16 :=
  mpmc_C4_capacity 10 (by norm_num)

/-! ### Lemmas about the vector queue -/

theorem wadd_mod_left (a b : Nat) : wadd (a % W) b = wadd a b := by
  simp [wadd, Nat.mod_add_mod]

theorem try_claim_producer_true {α : Type} {q q1 : SimdMpmcQueue α} {h bs : Nat}
    (hc : q.try_claim_batch_producer h bs = some (true, q1)) :
    q1 = { q with head := wadd h bs } ∧ q.head = h := by
  unfold SimdMpmcQueue.try_claim_batch_producer at hc
  cases hls : q.load_sequences_simd h bs with
  | none => rw [hls] at hc; cases hc
  | some seqs =>
    rw [hls] at hc
    simp only [Option.map_some', Option.some.injEq] at hc
    by_cases hse : seqs = SimdMpmcQueue.generate_expected_sequences_simd h bs
    · rw [if_pos hse] at hc
      by_cases hqh : q.head = h
      · rw [if_pos hqh] at hc
        injection hc with h1 h2
        exact ⟨h2.symm, hqh⟩
      · rw [if_neg hqh] at hc
        injection hc with h1 h2
        exact absurd h1.symm (by simp)
    · rw [if_neg hse] at hc
      injection hc with h1 h2
      exact absurd h1.symm (by simp)

theorem store_batch_head {α : Type} (q : SimdMpmcQueue α) (h : Nat) (items : List α) :
    (SimdMpmcQueue.store_batch_simd q h items).head = q.head := by
  unfold SimdMpmcQueue.store_batch_simd
  generalize (items.take 4).enum = l
  induction l generalizing q with
  | nil => rfl
  | cons x xs ih => exact ih _

theorem send_single_ok_head {α : Type} {q q1 : SimdMpmcQueue α} {x : α}
    (h : q.send_single_internal x = .ok q1) : q1.head = wadd q.head 1 := by
  simp only [SimdMpmcQueue.send_single_internal] at h
  split at h
  · exact SendResult.noConfusion h
  · split at h
    · injection h with h1
      rw [← h1]
    · split at h
      · split at h
        · exact SendResult.noConfusion h
        · exact SendResult.noConfusion h
      · exact SendResult.noConfusion h

theorem drop_add_four {α : Type} (l : List α) (x1 x2 x3 x4 : α) (k : Nat) :
    (x1 :: x2 :: x3 :: x4 :: l).drop (k + 4) = l.drop k := by
  rw [show k + 4 = k + 1 + 1 + 1 + 1 by omega]
  simp only [List.drop_succ_cons]

/-- Structure of the batch-send loop: on success every input item was sent
and `head` advanced by the input length; on failure the unsent remainder is a
nonempty suffix of the input and `head` advanced by exactly the number of
items sent before the failure (the operation is not rolled back). -/
theorem send_go_spec {α : Type} (q : SimdMpmcQueue α) (items : List α) (n0 : Nat) :
    q.head < W → ∀ qf r, SimdMpmcQueue.send_go q items n0 = some (qf, r) →
      (∀ n, r = .ok n → n = n0 + items.length ∧ qf.head = wadd q.head items.length) ∧
      (∀ v, r = .error v → v ≠ [] ∧ ∃ k, k + v.length = items.length ∧
        v = items.drop k ∧ qf.head = wadd q.head k) := by
  induction q, items, n0 using SimdMpmcQueue.send_go.induct with
  | case1 q n0 =>
    intro hW qf r h
    simp only [SimdMpmcQueue.send_go, Option.some.injEq, Prod.mk.injEq] at h
    obtain ⟨h1, h2⟩ := h
    subst h1; subst h2
    constructor
    · intro n hn
      injection hn with hn
      exact ⟨by simpa using hn.symm, (wadd_zero q.head hW).symm⟩
    · intro v hv
      exact SendBatchResult.noConfusion hv
  | case2 q a b c d rest n0 head htc =>
    intro hW qf r h
    simp only [SimdMpmcQueue.send_go, htc] at h
    exact Option.noConfusion h
  | case3 q a b c d rest n0 head q1 htc ih =>
    intro hW qf r h
    simp only [SimdMpmcQueue.send_go, htc] at h
    obtain ⟨hq1, -⟩ := try_claim_producer_true htc
    have hsh : (q1.store_batch_simd q.head [a, b, c, d]).head = wadd q.head 4 := by
      rw [store_batch_head, hq1]
    have ihr := ih (by rw [hsh]; exact wadd_lt _ _) qf r h
    have hlen4 : (a :: b :: c :: d :: rest).length = rest.length + 4 := by
      simp only [List.length_cons]
    constructor
    · intro n hn
      obtain ⟨hn1, hn2⟩ := ihr.1 n hn
      refine ⟨by rw [hlen4]; omega, ?_⟩
      rw [hn2, hsh, wadd_wadd, hlen4, show (4 : Nat) + rest.length = rest.length + 4 by omega]
    · intro v hv
      obtain ⟨hvne, k, hk1, hk2, hk3⟩ := ihr.2 v hv
      refine ⟨hvne, k + 4, by rw [hlen4]; omega, ?_, ?_⟩
      · rw [drop_add_four, hk2]
      · rw [hk3, hsh, wadd_wadd, show (4 : Nat) + k = k + 4 by omega]
  | case4 q a b c d rest n0 head snd htc q1 hok ih =>
    intro hW qf r h
    simp only [SimdMpmcQueue.send_go, htc, hok] at h
    have hq1h : q1.head = wadd q.head 1 := send_single_ok_head hok
    have ihr := ih (by rw [hq1h]; exact wadd_lt _ _) qf r h
    have hlen4 : (a :: b :: c :: d :: rest).length = (b :: c :: d :: rest).length + 1 := by
      simp only [List.length_cons]
    constructor
    · intro n hn
      obtain ⟨hn1, hn2⟩ := ihr.1 n hn
      refine ⟨by rw [hlen4]; omega, ?_⟩
      rw [hn2, hq1h, wadd_wadd, hlen4,
        show (1 : Nat) + (b :: c :: d :: rest).length = (b :: c :: d :: rest).length + 1 by omega]
    · intro v hv
      obtain ⟨hvne, k, hk1, hk2, hk3⟩ := ihr.2 v hv
      refine ⟨hvne, k + 1, by rw [hlen4]; omega, ?_, ?_⟩
      · rw [List.drop_succ_cons, hk2]
      · rw [hk3, hq1h, wadd_wadd, show (1 : Nat) + k = k + 1 by omega]
  | case5 q a b c d rest n0 head snd htc q1 x' hfull =>
    intro hW qf r h
    simp only [SimdMpmcQueue.send_go, htc, hfull, Option.some.injEq, Prod.mk.injEq] at h
    obtain ⟨h1, h2⟩ := h
    subst h1; subst h2
    constructor
    · intro n hn
      exact SendBatchResult.noConfusion hn
    · intro v hv
      injection hv with hv
      subst hv
      refine ⟨by simp, 0, by simp, rfl, (wadd_zero q.head hW).symm⟩
  | case6 q a b c d rest n0 head snd htc hne1 hne2 =>
    intro hW qf r h
    simp only [SimdMpmcQueue.send_go, htc] at h
    exact Option.noConfusion h
  | case7 q a rest n0 hshape q1 hok ih =>
    intro hW qf r h
    simp only [SimdMpmcQueue.send_go, hok] at h
    have hq1h : q1.head = wadd q.head 1 := send_single_ok_head hok
    have ihr := ih (by rw [hq1h]; exact wadd_lt _ _) qf r h
    constructor
    · intro n hn
      obtain ⟨hn1, hn2⟩ := ihr.1 n hn
      refine ⟨by simp only [List.length_cons]; omega, ?_⟩
      rw [hn2, hq1h, wadd_wadd]
      simp only [List.length_cons]
      congr 1
      omega
    · intro v hv
      obtain ⟨hvne, k, hk1, hk2, hk3⟩ := ihr.2 v hv
      refine ⟨hvne, k + 1, by simp only [List.length_cons]; omega, ?_, ?_⟩
      · rw [List.drop_succ_cons, hk2]
      · rw [hk3, hq1h, wadd_wadd, show (1 : Nat) + k = k + 1 by omega]
  | case8 q a rest n0 hshape q1 x' hfull =>
    intro hW qf r h
    simp only [SimdMpmcQueue.send_go, hfull, Option.some.injEq, Prod.mk.injEq] at h
    obtain ⟨h1, h2⟩ := h
    subst h1; subst h2
    constructor
    · intro n hn
      exact SendBatchResult.noConfusion hn
    · intro v hv
      injection hv with hv
      subst hv
      refine ⟨by simp, 0, by simp, rfl, (wadd_zero q.head hW).symm⟩
  | case9 q a rest n0 hshape hne1 hne2 =>
    intro hW qf r h
    simp only [SimdMpmcQueue.send_go] at h
    exact Option.noConfusion h

/-- C5: for any input slice, the batch send enqueues `n` items with
`0 ≤ n ≤ len(input)`; whenever not all items fit (the `error` outcome, whose
count is `len(input) - len(remainder)`), the returned remainder is exactly
the suffix `input[n..]`; and on the empty input slice the call returns a sent
count of 0 with the queue state completely untouched. -/
theorem simd_C5_batch_send {α : Type} (q qf : SimdMpmcQueue α) (items : List α)
    (r : SendBatchResult α) (hW : q.head < W) (h : q.send items = some (qf, r)) :
    (∀ n, r = .ok n → n ≤ items.length) ∧
    (∀ v, r = .error v →
      items.length - v.length < items.length ∧
      v = items.drop (items.length - v.length)) ∧
    (items = [] → qf = q ∧ r = .ok 0) := by
  unfold SimdMpmcQueue.send at h
  by_cases hemp : items.isEmpty
  · rw [if_pos hemp] at h
    simp only [Option.some.injEq, Prod.mk.injEq] at h
    obtain ⟨h1, h2⟩ := h
    subst h1; subst h2
    have hitems : items = [] := List.isEmpty_iff.mp hemp
    subst hitems
    refine ⟨?_, ?_, fun _ => ⟨rfl, rfl⟩⟩
    · intro n hn
      injection hn with hn
      subst hn
      simp
    · intro v hv
      exact SendBatchResult.noConfusion hv
  · rw [if_neg hemp] at h
    have hs := send_go_spec q items 0 hW qf r h
    refine ⟨?_, ?_, ?_⟩
    · intro n hn
      obtain ⟨h1, -⟩ := hs.1 n hn
      omega
    · intro v hv
      obtain ⟨hne, k, hk1, hk2, -⟩ := hs.2 v hv
      have hvpos : 0 < v.length := List.length_pos.2 hne
      have hk : k = items.length - v.length := by omega
      constructor
      · omega
      · rw [← hk]
        exact hk2
    · intro hitems
      subst hitems
      simp at hemp

/-- C5 witness: the batch-send theorem applied to a capacity-8 vector queue
and the nine-item input `[1..9]`, where the send stops after eight items and
returns the remainder `[9] = input[8..]`. -/
theorem simd_C5_batch_send_witness :
    ([1, 2, 3, 4, 5, 6, 7, 8, 9] : List Nat).length - [(9 : Nat)].length <
      ([1, 2, 3, 4, 5, 6, 7, 8, 9] : List Nat).length ∧
    ([9] : List Nat) = [1, 2, 3, 4, 5, 6, 7, 8, 9].drop
      (([1, 2, 3, 4, 5, 6, 7, 8, 9] : List Nat).length - [(9 : Nat)].length) :=
  (simd_C5_batch_send (SimdMpmcQueue.new Nat 8)
    (⟨[⟨1, some 1⟩, ⟨2, some 2⟩, ⟨3, some 3⟩, ⟨4, some 4⟩, ⟨5, some 5⟩,
       ⟨6, some 6⟩, ⟨7, some 7⟩, ⟨8, some 8⟩], 8, 7, 8, 0⟩ : SimdMpmcQueue Nat)
    [1, 2, 3, 4, 5, 6, 7, 8, 9] (.error [9]) (by decide) (by decide)).2.1 [9] rfl

/-- C10: the batch send returns the `Ok` variant only when every input item
was enqueued (`Ok n` implies `n = len(input)`); a partial send is reported
through the `Err` variant with a nonempty unsent suffix `input[n..]`, in
which case `head` has advanced by exactly the `n = len(input) - len(suffix)`
items already enqueued (the operation is not rolled back). -/
theorem simd_C10_send_result {α : Type} (q qf : SimdMpmcQueue α) (items : List α)
    (r : SendBatchResult α) (hW : q.head < W) (h : q.send items = some (qf, r)) :
    (∀ n, r = .ok n → n = items.length) ∧
    (∀ v, r = .error v → v ≠ [] ∧ v = items.drop (items.length - v.length) ∧
      qf.head = wadd q.head (items.length - v.length)) := by
  unfold SimdMpmcQueue.send at h
  by_cases hemp : items.isEmpty
  · rw [if_pos hemp] at h
    simp only [Option.some.injEq, Prod.mk.injEq] at h
    obtain ⟨h1, h2⟩ := h
    subst h1; subst h2
    have hitems : items = [] := List.isEmpty_iff.mp hemp
    subst hitems
    refine ⟨?_, ?_⟩
    · intro n hn
      injection hn with hn
      subst hn
      simp
    · intro v hv
      exact SendBatchResult.noConfusion hv
  · rw [if_neg hemp] at h
    have hs := send_go_spec q items 0 hW qf r h
    refine ⟨?_, ?_⟩
    · intro n hn
      obtain ⟨h1, -⟩ := hs.1 n hn
      omega
    · intro v hv
      obtain ⟨hne, k, hk1, hk2, hk3⟩ := hs.2 v hv
      have hvpos : 0 < v.length := List.length_pos.2 hne
      have hk : k = items.length - v.length := by omega
      refine ⟨hne, ?_, ?_⟩
      · rw [← hk]
        exact hk2
      · rw [← hk]
        exact hk3

/-- C10 witness: the send-result theorem applied to a capacity-8 vector queue
and the nine-item input `[1..9]`: the partial send is reported as
`Err [9]` and `head` advanced by the eight enqueued items. -/
theorem simd_C10_send_result_witness :
    ([9] : List Nat) ≠ [] ∧
    ([9] : List Nat) = [1, 2, 3, 4, 5, 6, 7, 8, 9].drop
      (([1, 2, 3, 4, 5, 6, 7, 8, 9] : List Nat).length - [(9 : Nat)].length) ∧
    (⟨[⟨1, some 1⟩, ⟨2, some 2⟩, ⟨3, some 3⟩, ⟨4, some 4⟩, ⟨5, some 5⟩,
       ⟨6, some 6⟩, ⟨7, some 7⟩, ⟨8, some 8⟩], 8, 7, 8, 0⟩ : SimdMpmcQueue Nat).head =
      wadd (SimdMpmcQueue.new Nat 8).head
        (([1, 2, 3, 4, 5, 6, 7, 8, 9] : List Nat).length - [(9 : Nat)].length) :=
  (simd_C10_send_result (SimdMpmcQueue.new Nat 8)
    (⟨[⟨1, some 1⟩, ⟨2, some 2⟩, ⟨3, some 3⟩, ⟨4, some 4⟩, ⟨5, some 5⟩,
       ⟨6, some 6⟩, ⟨7, some 7⟩, ⟨8, some 8⟩], 8, 7, 8, 0⟩ : SimdMpmcQueue Nat)
    [1, 2, 3, 4, 5, 6, 7, 8, 9] (.error [9]) (by decide) (by decide)).2 [9] rfl

theorem wadd_assoc' (a b c : Nat) : wadd (wadd a b) c = wadd (a + b) c := by
  unfold wadd
  rw [Nat.mod_add_mod]

/-- A successful 4-slot producer batch claim and store is state-for-state the
same as four successive scalar `send_one` operations: under the batch-claim
precondition (the four slots ahead of `head` all show their empty-state
ticket) the claim CAS advances `head` by 4, and the batch store drives the
four slots through exactly the payloads and published sequence values of the
scalar quartet, ending in the identical queue state. -/
theorem batch_producer_refines {α : Type} {C j : Nat} (q : SimdMpmcQueue α)
    (a b c d : α) (s0 s1 s2 s3 : Slot α)
    (hmask : q.mask = C - 1) (hlen : q.buffer.length = C)
    (hj : C = 2 ^ j) (h8 : 8 ≤ C) (hdvd : C ∣ W) (hhd : q.head < W)
    (hl0 : q.buffer[(q.head + 0) % C]? = some s0) (hq0 : s0.sequence = wadd q.head 0)
    (hl1 : q.buffer[(q.head + 1) % C]? = some s1) (hq1 : s1.sequence = wadd q.head 1)
    (hl2 : q.buffer[(q.head + 2) % C]? = some s2) (hq2 : s2.sequence = wadd q.head 2)
    (hl3 : q.buffer[(q.head + 3) % C]? = some s3) (hq3 : s3.sequence = wadd q.head 3) :
    q.try_claim_batch_producer q.head 4 = some (true, { q with head := wadd q.head 4 }) ∧
    (SimdMpmcQueue.store_batch_simd { q with head := wadd q.head 4 } q.head
        [a, b, c, d]).head = wadd q.head 4 ∧
    ∃ qa qb qc,
      q.send_single_internal a = .ok qa ∧
      qa.send_single_internal b = .ok qb ∧
      qb.send_single_internal c = .ok qc ∧
      qc.send_single_internal d =
        .ok (SimdMpmcQueue.store_batch_simd { q with head := wadd q.head 4 } q.head
          [a, b, c, d]) := by
  have hC0 : 0 < C := by omega
  have hidx : ∀ i : Nat, (wadd q.head i) &&& q.mask = (q.head + i) % C := by
    intro i
    rw [hmask, mask_mod hj]
    unfold wadd
    exact mod_W_mod_C hdvd _
  have hidx0' : q.head &&& q.mask = (q.head + 0) % C := by
    rw [hmask, mask_mod hj, Nat.add_zero]
  have hne : ∀ i k : Nat, i < C → k < C → i ≠ k →
      (q.head + i) % C ≠ (q.head + k) % C := by
    intro i k hi hk hik h
    exact hik (pos_inj hi hk h)
  have hload : q.load_sequences_simd q.head 4 =
      some [s0.sequence, s1.sequence, s2.sequence, s3.sequence] := by
    unfold SimdMpmcQueue.load_sequences_simd
    rw [show List.range 4 = [0, 1, 2, 3] from rfl]
    simp only [List.mapM_cons, List.mapM_nil, hidx 0, hidx 1, hidx 2, hidx 3,
      hl0, hl1, hl2, hl3]
    rfl
  have hclaim : q.try_claim_batch_producer q.head 4 =
      some (true, { q with head := wadd q.head 4 }) := by
    unfold SimdMpmcQueue.try_claim_batch_producer
    rw [hload]
    simp only [Option.map_some']
    have hcond : [s0.sequence, s1.sequence, s2.sequence, s3.sequence] =
        SimdMpmcQueue.generate_expected_sequences_simd q.head 4 := by
      rw [hq0, hq1, hq2, hq3]
      rfl
    rw [if_pos hcond]
    simp
  have hseq0 : s0.sequence = q.head := by rw [hq0, wadd_zero _ hhd]
  have hlk1 : (q.buffer.set ((q.head + 0) % C)
      (⟨wadd q.head 1, some a⟩ : Slot α))[(q.head + 1) % C]? = some s1 := by
    rw [List.getElem?_set_ne (hne 0 1 (by omega) (by omega) (by omega))]
    exact hl1
  have hlk2 : ((q.buffer.set ((q.head + 0) % C) (⟨wadd q.head 1, some a⟩ : Slot α)).set
      ((q.head + 1) % C) (⟨wadd q.head 2, some b⟩ : Slot α))[(q.head + 2) % C]? =
      some s2 := by
    rw [List.getElem?_set_ne (hne 1 2 (by omega) (by omega) (by omega)),
      List.getElem?_set_ne (hne 0 2 (by omega) (by omega) (by omega))]
    exact hl2
  have hlk3 : (((q.buffer.set ((q.head + 0) % C) (⟨wadd q.head 1, some a⟩ : Slot α)).set
      ((q.head + 1) % C) (⟨wadd q.head 2, some b⟩ : Slot α)).set
      ((q.head + 2) % C) (⟨wadd q.head 3, some c⟩ : Slot α))[(q.head + 3) % C]? =
      some s3 := by
    rw [List.getElem?_set_ne (hne 2 3 (by omega) (by omega) (by omega)),
      List.getElem?_set_ne (hne 1 3 (by omega) (by omega) (by omega)),
      List.getElem?_set_ne (hne 0 3 (by omega) (by omega) (by omega))]
    exact hl3
  have hstore : SimdMpmcQueue.store_batch_simd { q with head := wadd q.head 4 } q.head
      [a, b, c, d] =
      { q with head := wadd q.head 4, buffer := (((q.buffer.set ((q.head + 0) % C) ⟨wadd q.head 1, some a⟩).set ((q.head + 1) % C) ⟨wadd q.head 2, some b⟩).set ((q.head + 2) % C) ⟨wadd q.head 3, some c⟩).set ((q.head + 3) % C) ⟨wadd q.head 4, some d⟩ } := by
    rw [← hidx 0, ← hidx 1, ← hidx 2, ← hidx 3]
    rfl
  refine ⟨hclaim, by rw [hstore], ?_⟩
  refine ⟨{ q with head := wadd q.head 1, buffer := q.buffer.set ((q.head + 0) % C) ⟨wadd q.head 1, some a⟩ }, { q with head := wadd q.head 2, buffer := (q.buffer.set ((q.head + 0) % C) ⟨wadd q.head 1, some a⟩).set ((q.head + 1) % C) ⟨wadd q.head 2, some b⟩ }, { q with head := wadd q.head 3, buffer := ((q.buffer.set ((q.head + 0) % C) ⟨wadd q.head 1, some a⟩).set ((q.head + 1) % C) ⟨wadd q.head 2, some b⟩).set ((q.head + 2) % C) ⟨wadd q.head 3, some c⟩ }, ?_, ?_, ?_, ?_⟩
  · simp only [SimdMpmcQueue.send_single_internal, hidx0', hl0]
    rw [if_pos hseq0]
  · simp only [SimdMpmcQueue.send_single_internal, hidx 1, hlk1]
    rw [if_pos hq1, wadd_wadd]
  · simp only [SimdMpmcQueue.send_single_internal, hidx 2, hlk2]
    rw [if_pos hq2, wadd_wadd]
  · rw [hstore]
    simp only [SimdMpmcQueue.send_single_internal, hidx 3, hlk3]
    rw [if_pos hq3, wadd_wadd]

/-- One iteration of the loop of `SimdMpmcQueue::load_batch_simd`: with a
full slot at ring position `tl + i`, the payload moves out and the slot's
sequence is published as `(tl + i) + capacity`. -/
theorem load_batch_aux_step {α : Type} (q q' : SimdMpmcQueue α) (tl i k idx : Nat)
    (s : Slot α) (v : α)
    (hi : (wadd tl i) &&& q.mask = idx)
    (hs : q.buffer[idx]? = some s) (hd : s.data = some v)
    (hq' : q' = { q with buffer := q.buffer.set idx ⟨wadd (tl + i) q.capacity, none⟩ }) :
    SimdMpmcQueue.load_batch_aux q tl i (k + 1) =
      (SimdMpmcQueue.load_batch_aux q' tl (i + 1) k).map (fun r => (r.1, v :: r.2)) := by
  subst hq'
  simp only [SimdMpmcQueue.load_batch_aux, hi, hs, hd]

/-- A successful 4-slot consumer batch claim and load is state-for-state the
same as four successive scalar `recv_one` operations: under the batch-claim
precondition (the four slots after `tail` all show their full-state ticket
plus one) the claim CAS advances `tail` by 4, and the batch load moves out
exactly the payloads the scalar quartet would return, in the same order,
publishing the same sequence values and ending in the identical queue
state. -/
theorem batch_consumer_refines {α : Type} {C j : Nat} (q : SimdMpmcQueue α)
    (v0 v1 v2 v3 : α) (s0 s1 s2 s3 : Slot α)
    (hmask : q.mask = C - 1) (hlen : q.buffer.length = C)
    (hj : C = 2 ^ j) (h8 : 8 ≤ C) (hdvd : C ∣ W) (htl : q.tail < W)
    (hl0 : q.buffer[(q.tail + 0) % C]? = some s0) (hq0 : s0.sequence = wadd q.tail 1)
    (hd0 : s0.data = some v0)
    (hl1 : q.buffer[(q.tail + 1) % C]? = some s1) (hq1 : s1.sequence = wadd q.tail 2)
    (hd1 : s1.data = some v1)
    (hl2 : q.buffer[(q.tail + 2) % C]? = some s2) (hq2 : s2.sequence = wadd q.tail 3)
    (hd2 : s2.data = some v2)
    (hl3 : q.buffer[(q.tail + 3) % C]? = some s3) (hq3 : s3.sequence = wadd q.tail 4)
    (hd3 : s3.data = some v3) :
    q.try_claim_batch_consumer q.tail 4 = some (true, { q with tail := wadd q.tail 4 }) ∧
    ∃ qf, SimdMpmcQueue.load_batch_simd { q with tail := wadd q.tail 4 } q.tail 4 =
        some (qf, [v0, v1, v2, v3]) ∧
      qf.tail = wadd q.tail 4 ∧
      ∃ qa qb qc,
        q.recv_single_internal = .received qa v0 ∧
        qa.recv_single_internal = .received qb v1 ∧
        qb.recv_single_internal = .received qc v2 ∧
        qc.recv_single_internal = .received qf v3 := by
  have hC0 : 0 < C := by omega
  have hidx : ∀ i : Nat, (wadd q.tail i) &&& q.mask = (q.tail + i) % C := by
    intro i
    rw [hmask, mask_mod hj]
    unfold wadd
    exact mod_W_mod_C hdvd _
  have hidx0' : q.tail &&& q.mask = (q.tail + 0) % C := by
    rw [hmask, mask_mod hj, Nat.add_zero]
  have hne : ∀ i k : Nat, i < C → k < C → i ≠ k →
      (q.tail + i) % C ≠ (q.tail + k) % C := by
    intro i k hi hk hik h
    exact hik (pos_inj hi hk h)
  have hload : q.load_sequences_simd q.tail 4 =
      some [s0.sequence, s1.sequence, s2.sequence, s3.sequence] := by
    unfold SimdMpmcQueue.load_sequences_simd
    rw [show List.range 4 = [0, 1, 2, 3] from rfl]
    simp only [List.mapM_cons, List.mapM_nil, hidx 0, hidx 1, hidx 2, hidx 3,
      hl0, hl1, hl2, hl3]
    rfl
  have hclaim : q.try_claim_batch_consumer q.tail 4 =
      some (true, { q with tail := wadd q.tail 4 }) := by
    unfold SimdMpmcQueue.try_claim_batch_consumer
    rw [hload]
    simp only [Option.map_some']
    have hcond : [s0.sequence, s1.sequence, s2.sequence, s3.sequence] =
        SimdMpmcQueue.generate_expected_sequences_simd (wadd q.tail 1) 4 := by
      rw [hq0, hq1, hq2, hq3]
      simp only [SimdMpmcQueue.generate_expected_sequences_simd,
        show List.range 4 = [0, 1, 2, 3] from rfl, List.map_cons, List.map_nil, wadd_wadd]
    rw [if_pos hcond]
    simp
  have hrk1 : (q.buffer.set ((q.tail + 0) % C)
      (⟨wadd (q.tail + 0) q.capacity, none⟩ : Slot α))[(q.tail + 1) % C]? = some s1 := by
    rw [List.getElem?_set_ne (hne 0 1 (by omega) (by omega) (by omega))]
    exact hl1
  have hrk2 : ((q.buffer.set ((q.tail + 0) % C) (⟨wadd (q.tail + 0) q.capacity, none⟩ : Slot α)).set
      ((q.tail + 1) % C) (⟨wadd (q.tail + 1) q.capacity, none⟩ : Slot α))[(q.tail + 2) % C]? =
      some s2 := by
    rw [List.getElem?_set_ne (hne 1 2 (by omega) (by omega) (by omega)),
      List.getElem?_set_ne (hne 0 2 (by omega) (by omega) (by omega))]
    exact hl2
  have hrk3 : (((q.buffer.set ((q.tail + 0) % C) (⟨wadd (q.tail + 0) q.capacity, none⟩ : Slot α)).set
      ((q.tail + 1) % C) (⟨wadd (q.tail + 1) q.capacity, none⟩ : Slot α)).set
      ((q.tail + 2) % C) (⟨wadd (q.tail + 2) q.capacity, none⟩ : Slot α))[(q.tail + 3) % C]? =
      some s3 := by
    rw [List.getElem?_set_ne (hne 2 3 (by omega) (by omega) (by omega)),
      List.getElem?_set_ne (hne 1 3 (by omega) (by omega) (by omega)),
      List.getElem?_set_ne (hne 0 3 (by omega) (by omega) (by omega))]
    exact hl3
  have hb0 : SimdMpmcQueue.load_batch_aux { q with tail := wadd q.tail 4 } q.tail 0 4 =
      (SimdMpmcQueue.load_batch_aux { q with tail := wadd q.tail 4, buffer := q.buffer.set ((q.tail + 0) % C) ⟨wadd (q.tail + 0) q.capacity, none⟩ } q.tail 1 3).map
        (fun r => (r.1, v0 :: r.2)) :=
    load_batch_aux_step _ _ q.tail 0 3 ((q.tail + 0) % C) s0 v0 (hidx 0) hl0 hd0 rfl
  have hb1 : SimdMpmcQueue.load_batch_aux { q with tail := wadd q.tail 4, buffer := q.buffer.set ((q.tail + 0) % C) ⟨wadd (q.tail + 0) q.capacity, none⟩ } q.tail 1 3 =
      (SimdMpmcQueue.load_batch_aux { q with tail := wadd q.tail 4, buffer := (q.buffer.set ((q.tail + 0) % C) ⟨wadd (q.tail + 0) q.capacity, none⟩).set ((q.tail + 1) % C) ⟨wadd (q.tail + 1) q.capacity, none⟩ } q.tail 2 2).map
        (fun r => (r.1, v1 :: r.2)) :=
    load_batch_aux_step _ _ q.tail 1 2 ((q.tail + 1) % C) s1 v1 (hidx 1) hrk1 hd1 rfl
  have hb2 : SimdMpmcQueue.load_batch_aux { q with tail := wadd q.tail 4, buffer := (q.buffer.set ((q.tail + 0) % C) ⟨wadd (q.tail + 0) q.capacity, none⟩).set ((q.tail + 1) % C) ⟨wadd (q.tail + 1) q.capacity, none⟩ } q.tail 2 2 =
      (SimdMpmcQueue.load_batch_aux { q with tail := wadd q.tail 4, buffer := ((q.buffer.set ((q.tail + 0) % C) ⟨wadd (q.tail + 0) q.capacity, none⟩).set ((q.tail + 1) % C) ⟨wadd (q.tail + 1) q.capacity, none⟩).set ((q.tail + 2) % C) ⟨wadd (q.tail + 2) q.capacity, none⟩ } q.tail 3 1).map
        (fun r => (r.1, v2 :: r.2)) :=
    load_batch_aux_step _ _ q.tail 2 1 ((q.tail + 2) % C) s2 v2 (hidx 2) hrk2 hd2 rfl
  have hb3 : SimdMpmcQueue.load_batch_aux { q with tail := wadd q.tail 4, buffer := ((q.buffer.set ((q.tail + 0) % C) ⟨wadd (q.tail + 0) q.capacity, none⟩).set ((q.tail + 1) % C) ⟨wadd (q.tail + 1) q.capacity, none⟩).set ((q.tail + 2) % C) ⟨wadd (q.tail + 2) q.capacity, none⟩ } q.tail 3 1 =
      (SimdMpmcQueue.load_batch_aux { q with tail := wadd q.tail 4, buffer := (((q.buffer.set ((q.tail + 0) % C) ⟨wadd (q.tail + 0) q.capacity, none⟩).set ((q.tail + 1) % C) ⟨wadd (q.tail + 1) q.capacity, none⟩).set ((q.tail + 2) % C) ⟨wadd (q.tail + 2) q.capacity, none⟩).set ((q.tail + 3) % C) ⟨wadd (q.tail + 3) q.capacity, none⟩ } q.tail 4 0).map
        (fun r => (r.1, v3 :: r.2)) :=
    load_batch_aux_step _ _ q.tail 3 0 ((q.tail + 3) % C) s3 v3 (hidx 3) hrk3 hd3 rfl
  refine ⟨hclaim, { q with tail := wadd q.tail 4, buffer := (((q.buffer.set ((q.tail + 0) % C) ⟨wadd (q.tail + 0) q.capacity, none⟩).set ((q.tail + 1) % C) ⟨wadd (q.tail + 1) q.capacity, none⟩).set ((q.tail + 2) % C) ⟨wadd (q.tail + 2) q.capacity, none⟩).set ((q.tail + 3) % C) ⟨wadd (q.tail + 3) q.capacity, none⟩ }, ?_, rfl, ?_⟩
  · have h4 : SimdMpmcQueue.load_batch_simd { q with tail := wadd q.tail 4 } q.tail 4 =
        SimdMpmcQueue.load_batch_aux { q with tail := wadd q.tail 4 } q.tail 0 4 := rfl
    rw [h4, hb0, hb1, hb2, hb3]
    rfl
  have hq1' : s1.sequence = wadd (wadd q.tail 1) 1 := by
    rw [hq1, wadd_wadd]
  have hq2' : s2.sequence = wadd (wadd q.tail 2) 1 := by
    rw [hq2, wadd_wadd]
  have hq3' : s3.sequence = wadd (wadd q.tail 3) 1 := by
    rw [hq3, wadd_wadd]
  refine ⟨{ q with tail := wadd q.tail 1, buffer := q.buffer.set ((q.tail + 0) % C) ⟨wadd (q.tail + 0) q.capacity, none⟩ }, { q with tail := wadd q.tail 2, buffer := (q.buffer.set ((q.tail + 0) % C) ⟨wadd (q.tail + 0) q.capacity, none⟩).set ((q.tail + 1) % C) ⟨wadd (q.tail + 1) q.capacity, none⟩ }, { q with tail := wadd q.tail 3, buffer := ((q.buffer.set ((q.tail + 0) % C) ⟨wadd (q.tail + 0) q.capacity, none⟩).set ((q.tail + 1) % C) ⟨wadd (q.tail + 1) q.capacity, none⟩).set ((q.tail + 2) % C) ⟨wadd (q.tail + 2) q.capacity, none⟩ }, ?_, ?_, ?_, ?_⟩
  · simp only [SimdMpmcQueue.recv_single_internal, hidx0', hl0, hd0]
    rw [if_pos hq0]
    rfl
  · simp only [SimdMpmcQueue.recv_single_internal, hidx 1, hrk1, hd1]
    rw [if_pos hq1', wadd_assoc', wadd_wadd]
  · simp only [SimdMpmcQueue.recv_single_internal, hidx 2, hrk2, hd2]
    rw [if_pos hq2', wadd_assoc', wadd_wadd]
  · simp only [SimdMpmcQueue.recv_single_internal, hidx 3, hrk3, hd3]
    rw [if_pos hq3', wadd_assoc', wadd_wadd]

/-- **C6.** Executed sequentially, a successful 4-item batch claim on the
vector queue advances `head` (respectively `tail`) by 4 and drives the four
claimed slots through exactly the same sequence values and payload contents
as four successive scalar `send_one` (respectively `recv_one`) operations,
ending in the identical queue state; and on a capacity-16 vector queue,
batch-sending `[1,…,7]` and then batch-receiving into a buffer of length 10
returns count 7 with the buffer's first 7 entries `[1,…,7]` in order. -/
theorem simd_C6_batch_refinement :
    (∀ (α : Type) (C j : Nat) (q : SimdMpmcQueue α) (a b c d : α) (s0 s1 s2 s3 : Slot α),
      q.mask = C - 1 → q.buffer.length = C → C = 2 ^ j → 8 ≤ C → C ∣ W → q.head < W →
      q.buffer[(q.head + 0) % C]? = some s0 → s0.sequence = wadd q.head 0 →
      q.buffer[(q.head + 1) % C]? = some s1 → s1.sequence = wadd q.head 1 →
      q.buffer[(q.head + 2) % C]? = some s2 → s2.sequence = wadd q.head 2 →
      q.buffer[(q.head + 3) % C]? = some s3 → s3.sequence = wadd q.head 3 →
      q.try_claim_batch_producer q.head 4 = some (true, { q with head := wadd q.head 4 }) ∧
      (SimdMpmcQueue.store_batch_simd { q with head := wadd q.head 4 } q.head
          [a, b, c, d]).head = wadd q.head 4 ∧
      ∃ qa qb qc,
        q.send_one a = .ok qa ∧
        qa.send_one b = .ok qb ∧
        qb.send_one c = .ok qc ∧
        qc.send_one d = .ok (SimdMpmcQueue.store_batch_simd { q with head := wadd q.head 4 }
          q.head [a, b, c, d])) ∧
    (∀ (α : Type) (C j : Nat) (q : SimdMpmcQueue α) (v0 v1 v2 v3 : α) (s0 s1 s2 s3 : Slot α),
      q.mask = C - 1 → q.buffer.length = C → C = 2 ^ j → 8 ≤ C → C ∣ W → q.tail < W →
      q.buffer[(q.tail + 0) % C]? = some s0 → s0.sequence = wadd q.tail 1 → s0.data = some v0 →
      q.buffer[(q.tail + 1) % C]? = some s1 → s1.sequence = wadd q.tail 2 → s1.data = some v1 →
      q.buffer[(q.tail + 2) % C]? = some s2 → s2.sequence = wadd q.tail 3 → s2.data = some v2 →
      q.buffer[(q.tail + 3) % C]? = some s3 → s3.sequence = wadd q.tail 4 → s3.data = some v3 →
      q.try_claim_batch_consumer q.tail 4 = some (true, { q with tail := wadd q.tail 4 }) ∧
      ∃ qf, SimdMpmcQueue.load_batch_simd { q with tail := wadd q.tail 4 } q.tail 4 =
          some (qf, [v0, v1, v2, v3]) ∧
        qf.tail = wadd q.tail 4 ∧
        ∃ qa qb qc,
          q.recv_one = .received qa v0 ∧
          qa.recv_one = .received qb v1 ∧
          qb.recv_one = .received qc v2 ∧
          qc.recv_one = .received qf v3) ∧
    (SimdMpmcQueue.send (SimdMpmcQueue.new Nat 16) [1, 2, 3, 4, 5, 6, 7]).bind
        (fun r => (SimdMpmcQueue.recv r.1 (List.replicate 10 0)).map
          (fun s => (r.2, s.2.1.take 7, s.2.2)))
      = some (.ok 7, [1, 2, 3, 4, 5, 6, 7], 7) := by
  refine ⟨?_, ?_, by decide⟩
  · intro α C j q a b c d s0 s1 s2 s3 hmask hlen hj h8 hdvd hhd hl0 hq0 hl1 hq1 hl2 hq2 hl3 hq3
    exact batch_producer_refines q a b c d s0 s1 s2 s3 hmask hlen hj h8 hdvd hhd
      hl0 hq0 hl1 hq1 hl2 hq2 hl3 hq3
  · intro α C j q v0 v1 v2 v3 s0 s1 s2 s3 hmask hlen hj h8 hdvd htl
      hl0 hq0 hd0 hl1 hq1 hd1 hl2 hq2 hd2 hl3 hq3 hd3
    exact batch_consumer_refines q v0 v1 v2 v3 s0 s1 s2 s3 hmask hlen hj h8 hdvd htl
      hl0 hq0 hd0 hl1 hq1 hd1 hl2 hq2 hd2 hl3 hq3 hd3

/-- Witness for **C6**: the producer half of the refinement applied to the
freshly constructed capacity-16 vector queue, whose first four slots show
exactly the empty-state tickets the claim requires. -/
theorem simd_C6_batch_refinement_witness :
    (SimdMpmcQueue.new Nat 16).mask = 16 - 1 ∧
    (SimdMpmcQueue.new Nat 16).buffer.length = 16 ∧
    (SimdMpmcQueue.new Nat 16).try_claim_batch_producer (SimdMpmcQueue.new Nat 16).head 4 =
      some (true, { SimdMpmcQueue.new Nat 16 with
        head := wadd (SimdMpmcQueue.new Nat 16).head 4 }) :=
  ⟨by decide, by decide,
    (simd_C6_batch_refinement.1 Nat 16 4 (SimdMpmcQueue.new Nat 16) 1 2 3 4
      ⟨0, none⟩ ⟨1, none⟩ ⟨2, none⟩ ⟨3, none⟩
      (by decide) (by decide) (by decide) (by decide) (by decide) (by decide)
      (by decide) (by decide) (by decide) (by decide) (by decide) (by decide)
      (by decide) (by decide)).1⟩
